import Mathlib

/-!
Verification of the mesh-cleanup / polygon-reconstruction core of the
`3d2scad.py` converter (quantization, zero-area filtering, coplanar
merging, numeric formatting).

Floating-point numbers of the source are modelled as exact rationals
(`ℚ`); the square roots appearing in vector norms are modelled exactly
over `ℝ` (`Real.sqrt`), and wherever the source branches on such a
quantity the executable embedding uses an equivalent square-root-free
rational comparison, with the equivalence to the `ℝ`-level definition
proved as a lemma.
-/

namespace ThreeD2Scad

abbrev Vec3 := ℚ × ℚ × ℚ

abbrev Tri := ℕ × ℕ × ℕ

/-- Componentwise subtraction of 3-vectors (numpy `v1 - v0`). -/
def vsub (a b : Vec3) : Vec3 := (a.1 - b.1, a.2.1 - b.2.1, a.2.2 - b.2.2)

/-- Cross product of 3-vectors (numpy `np.cross`). -/
def cross (a b : Vec3) : Vec3 :=
  (a.2.1 * b.2.2 - a.2.2 * b.2.1, a.2.2 * b.1 - a.1 * b.2.2, a.1 * b.2.1 - a.2.1 * b.1)

/-- Dot product of 3-vectors (numpy `np.dot`), over `ℚ`. -/
def dotQ (a b : Vec3) : ℚ := a.1 * b.1 + a.2.1 * b.2.1 + a.2.2 * b.2.2

/-- Squared Euclidean norm of a 3-vector. -/
def normSq (a : Vec3) : ℚ := dotQ a a

/-- Squared distance between two vertices. -/
def distSq (a b : Vec3) : ℚ := normSq (vsub a b)

/-- `face_normal(v0, v1, v2)` of the source: `np.cross(v1 - v0, v2 - v0)`. -/
def face_normal (v0 v1 v2 : Vec3) : Vec3 := cross (vsub v1 v0) (vsub v2 v0)

/-- The (unnormalized) face normal of triangle `t` of the vertex array. -/
def crossOf (vertices : List Vec3) (t : Tri) : Vec3 :=
  face_normal (vertices.getD t.1 (0, 0, 0)) (vertices.getD t.2.1 (0, 0, 0))
    (vertices.getD t.2.2 (0, 0, 0))

/-- Round to nearest integer, ties to even: the semantics of `np.round`
(and of the Python float formatting), on exact rationals. -/
def roundHalfEven (x : ℚ) : ℤ :=
  if x - (⌊x⌋ : ℚ) < 1/2 then ⌊x⌋
  else if 1/2 < x - (⌊x⌋ : ℚ) then ⌊x⌋ + 1
  else if 2 ∣ ⌊x⌋ then ⌊x⌋ else ⌊x⌋ + 1

/-- One coordinate of `quantize_vertices`: `np.round(c / grid_size) * grid_size`. -/
def quantizeCoord (grid_size c : ℚ) : ℚ := (roundHalfEven (c / grid_size) : ℚ) * grid_size

/-- Quantization of a single vertex, applied independently per axis. -/
def quantizePoint (grid_size : ℚ) (v : Vec3) : Vec3 :=
  (quantizeCoord grid_size v.1, quantizeCoord grid_size v.2.1, quantizeCoord grid_size v.2.2)

/-- `quantize_vertices(mesh, grid_size)`: `mesh.vertices = np.round(mesh.vertices / grid_size) * grid_size`. -/
def quantize_vertices (vertices : List Vec3) (grid_size : ℚ) : List Vec3 :=
  vertices.map (quantizePoint grid_size)

/-- Area of a triangle (`trimesh.triangles.area`): half the norm of the
cross product of two edge vectors. -/
noncomputable def triangleArea (vertices : List Vec3) (t : Tri) : ℝ :=
  Real.sqrt ((normSq (crossOf vertices t) : ℚ)) / 2

/-- `remove_zero_area_triangles`: keep faces with `area > 1e-12`.  The
executable filter compares squared norms: `area > 1e-12` iff
`normSq (cross) > 4e-24` (see `triangleArea_gt_iff`). -/
def remove_zero_area_triangles (vertices : List Vec3) (faces : List Tri) : List Tri :=
  faces.filter (fun t => decide ((4 : ℚ)/10^24 < normSq (crossOf vertices t)))

/-- Decimal digits of a natural number, most significant first. -/
def natDigits (n : ℕ) : List Char := Nat.toDigits 10 n

/-- Left-pad a digit list with zeros up to length `k`. -/
def padZeros (l : List Char) (k : ℕ) : List Char := List.replicate (k - l.length) '0' ++ l

/-- The Python fixed-point rendering `"{:.<p>f}".format(n)` on an exact
rational: round `|n| * 10^p` half-to-even, pad to at least `p+1` digits,
insert the decimal point (only when `p > 0`), prepend the sign. -/
def renderFixed (n : ℚ) (p : ℕ) : List Char :=
  let m := (roundHalfEven (|n| * 10 ^ p)).toNat
  let ds := padZeros (natDigits m) (p + 1)
  let body := if p = 0 then ds else ds.take (ds.length - p) ++ '.' :: ds.drop (ds.length - p)
  (if n < 0 then ['-'] else []) ++ body

/-- Python `str.rstrip(c)`: drop all trailing occurrences of `c`. -/
def rstrip (c : Char) (s : List Char) : List Char :=
  (s.reverse.dropWhile (fun x => x = c)).reverse

/-- `format_number(n, precision)` of the source: fixed-point rendering,
then `rstrip('0').rstrip('.')`, then the leading-zero / `-0` fixups. -/
def format_number (n : ℚ) (precision : ℕ) : String :=
  let s := rstrip '.' (rstrip '0' (renderFixed n precision))
  let s2 :=
    if s.take 3 = ['-', '0', '.'] then '-' :: s.drop 2
    else if s.take 2 = ['0', '.'] then s.drop 1
    else if s = ['-', '0'] then ['0']
    else s
  String.mk s2

/-! ### `merge_coplanar_triangles`

The flood fill over shared edges and the boundary extraction of
lines 115-206 of the source.  Python dicts are modelled as insertion
ordered association lists (`dmem` / `dupsert` / `derase` / `dget`), the
Python `set` of visited triangles as a list queried by membership, and
the `deque` with `append` / `pop` (both at the right end) as a stack
whose head is the top.  The normal-similarity test (the only place
where a square root is compared) is kept as an `ℝ`-level proposition,
and the flood fill is parameterized by the boolean test it induces. -/

/-- Key membership of an insertion-ordered dict. -/
def dmem {α β : Type} [BEq α] (k : α) (d : List (α × β)) : Bool := d.any (fun e => e.1 == k)

/-- Python dict assignment `d[k] = v`: update in place if the key is
present (keeping its insertion position), otherwise append. -/
def dupsert {α β : Type} [BEq α] (k : α) (v : β) (d : List (α × β)) : List (α × β) :=
  if dmem k d then d.map (fun e => if e.1 == k then (k, v) else e) else d ++ [(k, v)]

/-- Python `del d[k]`. -/
def derase {α β : Type} [BEq α] (k : α) (d : List (α × β)) : List (α × β) :=
  d.filter (fun e => !(e.1 == k))

/-- Python `d[k]` / `k in d` combined: the value at key `k`, if present. -/
def dget {α β : Type} [BEq α] (k : α) (d : List (α × β)) : Option β :=
  (d.find? (fun e => e.1 == k)).map (fun e => e.2)

/-- `tuple(sorted((a, b)))`. -/
def sortPair (a b : ℕ) : ℕ × ℕ := if a ≤ b then (a, b) else (b, a)

/-- The three directed edges `(tri[i], tri[(i+1) % 3])` of a triangle. -/
def triEdges (t : Tri) : List (ℕ × ℕ) := [(t.1, t.2.1), (t.2.1, t.2.2), (t.2.2, t.1)]

/-- The three undirected edge keys of a triangle. -/
def triKeys (t : Tri) : List (ℕ × ℕ) := (triEdges t).map (fun e => sortPair e.1 e.2)

/-- Append `i` to the `defaultdict(list)` entry at `k`. -/
def addKey (m : List ((ℕ × ℕ) × List ℕ)) (k : ℕ × ℕ) (i : ℕ) : List ((ℕ × ℕ) × List ℕ) :=
  if dmem k m then m.map (fun e => if e.1 == k then (e.1, e.2 ++ [i]) else e)
  else m ++ [(k, [i])]

/-- `edge_to_triangles`: for every edge key, the indices of the
triangles touching it, in insertion order. -/
def buildEdgeMap (triangles : List Tri) : List ((ℕ × ℕ) × List ℕ) :=
  triangles.enum.foldl (fun m p => (triKeys p.2).foldl (fun m k => addKey m k p.1) m) []

/-- The neighbor candidates scanned for `curr`: the concatenation of the
`edge_to_triangles` lists of its three edge keys, in scan order. -/
def neighborList (em : List ((ℕ × ℕ) × List ℕ)) (t : Tri) : List ℕ :=
  ((triKeys t).map (fun k => (dget k em).getD [])).flatten

/-- Process the neighbor candidates of `curr`: each unvisited neighbor
passing the test is pushed on the queue, appended to the group and
marked used.  State: `(queue, group, used)`. -/
def floodStep (test : ℕ → ℕ → Bool) (curr : ℕ) (nbrs : List ℕ)
    (st : List ℕ × List ℕ × List ℕ) : List ℕ × List ℕ × List ℕ :=
  nbrs.foldl (fun st nbr =>
    if nbr ∈ st.2.2 then st
    else if test curr nbr then (nbr :: st.1, st.2.1 ++ [nbr], nbr :: st.2.2)
    else st) st

/-- The `while queue:` loop of the region growth, with explicit fuel
(each iteration pops the top of the stack; `computeGroups` supplies
enough fuel for the queue to drain, see `floodLoop_fuel_sufficient`). -/
def floodLoop (test : ℕ → ℕ → Bool) (triangles : List Tri) (em : List ((ℕ × ℕ) × List ℕ)) :
    ℕ → List ℕ → List ℕ → List ℕ → List ℕ × List ℕ
  | 0, _, group, used => (group, used)
  | _ + 1, [], group, used => (group, used)
  | fuel + 1, curr :: rest, group, used =>
    let st := floodStep test curr (neighborList em (triangles.getD curr (0, 0, 0))) (rest, group, used)
    floodLoop test triangles em fuel st.1 st.2.1 st.2.2

/-- One iteration of `for i in range(len(triangles))`: start a flood
fill at `i` unless it is already visited.  State: `(used, groups)`. -/
def groupStep (test : ℕ → ℕ → Bool) (triangles : List Tri) (em : List ((ℕ × ℕ) × List ℕ))
    (st : List ℕ × List (List ℕ)) (i : ℕ) : List ℕ × List (List ℕ) :=
  if i ∈ st.1 then st
  else
    let fg := floodLoop test triangles em (triangles.length + 1) [i] [i] (i :: st.1)
    (fg.2, st.2 ++ [fg.1])

/-- `triangle_groups`: flood fill from every unvisited triangle. -/
def computeGroups (test : ℕ → ℕ → Bool) (triangles : List Tri) : List (List ℕ) :=
  ((List.range triangles.length).foldl
    (groupStep test triangles (buildEdgeMap triangles)) ([], [])).2

/-- `y` is scanned among the neighbor candidates of `x` during the
region growth and passes the coplanarity test. -/
def adjacent (test : ℕ → ℕ → Bool) (triangles : List Tri) (x y : ℕ) : Prop :=
  y ∈ neighborList (buildEdgeMap triangles) (triangles.getD x (0, 0, 0)) ∧ test x y = true

/-- The number of triangle indices not yet visited. -/
def unusedCount (n : ℕ) (u : List ℕ) : ℕ :=
  ((Finset.range n).filter (fun x => x ∉ u)).card

/-- Invariant of the region-growth loop: visited set and groups agree,
no triangle is in two groups, everything is in range, and both the
visited set and every finished group are closed under `adjacent`. -/
def GroupsInv (test : ℕ → ℕ → Bool) (triangles : List Tri)
    (st : List ℕ × List (List ℕ)) : Prop :=
  (∀ x, x ∈ st.1 ↔ x ∈ st.2.flatten) ∧
    st.2.flatten.Nodup ∧
    (∀ x ∈ st.1, x < triangles.length) ∧
    (∀ x ∈ st.1, ∀ y, adjacent test triangles x y → y ∈ st.1) ∧
    (∀ g ∈ st.2, ∀ x ∈ g, ∀ y, adjacent test triangles x y → y ∈ g)

/-- Directed-edge cancellation for a region (`edge_count`): a directed
edge deletes its reverse if present, otherwise stores itself. -/
def stepEdgeCount (ec : List ((ℕ × ℕ) × (ℕ × ℕ))) (e : ℕ × ℕ) : List ((ℕ × ℕ) × (ℕ × ℕ)) :=
  if dmem (e.2, e.1) ec then derase (e.2, e.1) ec else dupsert e e ec

/-- `edge_count` after scanning all directed edges of a region. -/
def buildEdgeCount (triangles : List Tri) (group : List ℕ) : List ((ℕ × ℕ) × (ℕ × ℕ)) :=
  group.foldl (fun ec idx => (triEdges (triangles.getD idx (0, 0, 0))).foldl stepEdgeCount ec) []

/-- `edges = {a: b for a, b in edge_count.values()}`. -/
def buildEdges (ec : List ((ℕ × ℕ) × (ℕ × ℕ))) : List (ℕ × ℕ) :=
  ec.foldl (fun m e => dupsert e.2.1 e.2.2 m) []

/-- How the boundary walk of a region ended. -/
inductive WalkExit : Type
  | closed : WalkExit
  | revisit : WalkExit
  | overflow : WalkExit
  | opened : WalkExit
deriving DecidableEq

/-- The `while current in edges:` walk.  Fuel only stands in for the
structural decrease of `edges` (one entry is deleted per iteration);
callers pass `edges.length`, which is always sufficient. -/
def loopWalk : ℕ → List (ℕ × ℕ) → List ℕ → ℕ → List ℕ × WalkExit
  | 0, _, loop, _ => (loop, WalkExit.opened)
  | fuel + 1, edges, loop, current =>
    match dget current edges with
    | none => (loop, WalkExit.opened)
    | some nxt =>
      if nxt = loop.headD 0 then (loop ++ [nxt], WalkExit.closed)
      else if nxt ∈ loop then ([], WalkExit.revisit)
      else if 1000 < (loop ++ [nxt]).length then ([], WalkExit.overflow)
      else loopWalk fuel (derase current edges) (loop ++ [nxt]) nxt

/-- The boundary walk of a region, starting from the first stored edge,
together with how it ended. -/
def regionWalk (triangles : List Tri) (group : List ℕ) : List ℕ × WalkExit :=
  let edges := buildEdges (buildEdgeCount triangles group)
  match edges with
  | [] => ([], WalkExit.opened)
  | (s, _) :: _ => loopWalk edges.length edges [s] s

/-- The polygon emitted for one region (at most one): `none` models the
`continue` / failed-closure paths of the source. -/
def regionPoly (triangles : List Tri) (group : List ℕ) : Option (List ℕ) :=
  let ec := buildEdgeCount triangles group
  if ec.length < 3 then none
  else
    let edges := buildEdges ec
    if edges.isEmpty then none
    else
      let loop := (regionWalk triangles group).1
      if 4 ≤ loop.length ∧ loop.headD 0 = loop.getLastD 0 then some loop.dropLast.reverse
      else none

/-- The grouping and boundary-extraction pipeline for an arbitrary
boolean coplanarity test. -/
def mergeAux (test : ℕ → ℕ → Bool) (triangles : List Tri) : List (List ℕ) :=
  (computeGroups test triangles).filterMap (regionPoly triangles)

/-- The unnormalized face normal of triangle `i` (`face_normals[i]`
before the in-place division). -/
def triNormal (vertices : List Vec3) (triangles : List Tri) (i : ℕ) : Vec3 :=
  crossOf vertices (triangles.getD i (0, 0, 0))

/-- `normal /= np.linalg.norm(normal) + 1e-12`, over `ℝ`. -/
noncomputable def unitNormal (c : Vec3) : ℝ × ℝ × ℝ :=
  ((c.1 : ℝ) / (Real.sqrt ((normSq c : ℚ)) + 1/10^12),
   (c.2.1 : ℝ) / (Real.sqrt ((normSq c : ℚ)) + 1/10^12),
   (c.2.2 : ℝ) / (Real.sqrt ((normSq c : ℚ)) + 1/10^12))

/-- `np.dot(face_normals[curr], face_normals[nbr])` after normalization. -/
noncomputable def normalDot (c1 c2 : Vec3) : ℝ :=
  (unitNormal c1).1 * (unitNormal c2).1 + (unitNormal c1).2.1 * (unitNormal c2).2.1
    + (unitNormal c1).2.2 * (unitNormal c2).2.2

/-- The merge criterion of the source: `dot >= 1.0 - normal_tolerance`. -/
def normalSimilar (vertices : List Vec3) (triangles : List Tri) (tol : ℚ) (i j : ℕ) : Prop :=
  normalDot (triNormal vertices triangles i) (triNormal vertices triangles j) ≥ 1 - (tol : ℝ)

/-- The boolean test induced by `normalSimilar` (classically decided;
concrete instances are settled through `normalSimilar_iff_rat`). -/
noncomputable def coplanarTest (vertices : List Vec3) (triangles : List Tri) (tol : ℚ) :
    ℕ → ℕ → Bool :=
  fun i j => @decide (normalSimilar vertices triangles tol i j) (Classical.propDecidable _)

/-- `triangle_groups` of `merge_coplanar_triangles(vertices, triangles, tol)`. -/
noncomputable def triangleGroups (vertices : List Vec3) (triangles : List Tri) (tol : ℚ) :
    List (List ℕ) :=
  computeGroups (coplanarTest vertices triangles tol) triangles

/-- `merge_coplanar_triangles(vertices, triangles, normal_tolerance)`:
the returned `final_polys`.  The default tolerance of the source is `1e-4`. -/
noncomputable def merge_coplanar_triangles (vertices : List Vec3) (triangles : List Tri)
    (tol : ℚ) : List (List ℕ) :=
  (triangleGroups vertices triangles tol).filterMap (regionPoly triangles)

/-- `z` occurs as a corner index of some triangle of the list. -/
def isCorner (triangles : List Tri) (z : ℕ) : Prop :=
  ∃ t ∈ triangles, z = t.1 ∨ z = t.2.1 ∨ z = t.2.2

/-- Two triangles of the list share an (undirected) edge. -/
def sharesEdge (triangles : List Tri) (i j : ℕ) : Prop :=
  ∃ k, k ∈ triKeys (triangles.getD i (0, 0, 0)) ∧ k ∈ triKeys (triangles.getD j (0, 0, 0))

/-! ## Rounding and quantization lemmas -/

theorem roundHalfEven_intCast (k : ℤ) : roundHalfEven (k : ℚ) = k := by
  simp [roundHalfEven, Int.floor_intCast]

theorem abs_roundHalfEven_sub_le (x : ℚ) : |(roundHalfEven x : ℚ) - x| ≤ 1/2 := by
  have h0 : (⌊x⌋ : ℚ) ≤ x := Int.floor_le x
  have h1 : x - ⌊x⌋ < 1 := by
    have := Int.lt_floor_add_one x
    linarith
  unfold roundHalfEven
  split_ifs with hr hr2 hpar
  · rw [abs_le]; constructor <;> linarith
  · push_cast
    rw [abs_le]; constructor <;> linarith
  · have : x - ⌊x⌋ = 1/2 := by linarith
    rw [abs_le]; constructor <;> linarith
  · have : x - ⌊x⌋ = 1/2 := by linarith
    push_cast
    rw [abs_le]; constructor <;> linarith

theorem quantizeCoord_idem (g c : ℚ) (hg : 0 < g) :
    quantizeCoord g (quantizeCoord g c) = quantizeCoord g c := by
  unfold quantizeCoord
  rw [mul_div_cancel_right₀ _ (ne_of_gt hg), roundHalfEven_intCast]

theorem quantizeCoord_close (g a b : ℚ) (hg : 0 < g) (hab : |a - b| < g/2) :
    |quantizeCoord g a - quantizeCoord g b| ≤ g := by
  have hra := abs_roundHalfEven_sub_le (a / g)
  have hrb := abs_roundHalfEven_sub_le (b / g)
  have hdiv : |a/g - b/g| < 1/2 := by
    rw [div_sub_div_same, abs_div, abs_of_pos hg]
    rw [div_lt_iff₀ hg]
    calc |a - b| < g/2 := hab
    _ = 1/2 * g := by ring
  have hint : |roundHalfEven (a/g) - roundHalfEven (b/g)| ≤ 1 := by
    have h32 : |(roundHalfEven (a/g) : ℚ) - (roundHalfEven (b/g) : ℚ)| < 3/2 := by
      have := abs_sub_le ((roundHalfEven (a/g) : ℚ)) (a/g) ((roundHalfEven (b/g) : ℚ))
      have h2 := abs_sub_le (a/g) (b/g) ((roundHalfEven (b/g) : ℚ))
      have h3 : |(b/g : ℚ) - (roundHalfEven (b/g) : ℚ)| ≤ 1/2 := by
        rw [abs_sub_comm]; exact hrb
      linarith
    have h2q : |(roundHalfEven (a/g) : ℚ) - (roundHalfEven (b/g) : ℚ)| < 2 := by linarith
    have hlt2 : |roundHalfEven (a/g) - roundHalfEven (b/g)| < 2 := by exact_mod_cast h2q
    omega
  unfold quantizeCoord
  have : (roundHalfEven (a/g) : ℚ) * g - (roundHalfEven (b/g) : ℚ) * g
      = ((roundHalfEven (a/g) - roundHalfEven (b/g) : ℤ) : ℚ) * g := by
    push_cast
    ring
  rw [this, abs_mul, abs_of_pos hg]
  calc |((roundHalfEven (a/g) - roundHalfEven (b/g) : ℤ) : ℚ)| * g
      ≤ 1 * g := by
        apply mul_le_mul_of_nonneg_right _ (le_of_lt hg)
        rw [← Int.cast_abs]
        exact_mod_cast hint
  _ = g := one_mul g

theorem distSq_eq (v w : Vec3) :
    distSq v w = (v.1 - w.1)^2 + (v.2.1 - w.2.1)^2 + (v.2.2 - w.2.2)^2 := by
  unfold distSq normSq dotQ vsub
  ring

/-- C7: quantization is idempotent: re-quantizing an already-quantized
mesh at the same positive grid unit leaves every vertex unchanged. -/
theorem quantize_vertices_idempotent (vertices : List Vec3) (g : ℚ) (hg : 0 < g) :
    quantize_vertices (quantize_vertices vertices g) g = quantize_vertices vertices g := by
  unfold quantize_vertices
  rw [List.map_map]
  apply List.map_congr_left
  intro v _
  show quantizePoint g (quantizePoint g v) = quantizePoint g v
  unfold quantizePoint
  simp [quantizeCoord_idem _ _ hg]

/-- Witness for C7 at a concrete mesh and grid unit. -/
theorem quantize_vertices_idempotent_witness :
    (0 : ℚ) < 1/1000 ∧
      quantize_vertices (quantize_vertices [((1:ℚ)/3, 1/2, -5/7)] (1/1000)) (1/1000)
        = quantize_vertices [((1:ℚ)/3, 1/2, -5/7)] (1/1000) :=
  ⟨by norm_num, quantize_vertices_idempotent _ _ (by norm_num)⟩

/-- C5 (counterexample): the grid unit `g = 1` and the vertices
`(2/5,0,0)` and `(3/5,0,0)` are closer than `g/2` (squared distance
below `(g/2)^2`) yet quantize to different grid points. -/
theorem quantize_vertices_half_grid_cex :
    (0:ℚ) < 1 ∧ distSq (2/5, 0, 0) (3/5, 0, 0) < ((1:ℚ)/2)^2 ∧
      quantize_vertices [((2:ℚ)/5, 0, 0), ((3:ℚ)/5, 0, 0)] 1 = [(0, 0, 0), (1, 0, 0)] := by
  have h1 : roundHalfEven (2/5 : ℚ) = 0 := by
    have : ⌊(2/5 : ℚ)⌋ = 0 := by norm_num
    unfold roundHalfEven
    rw [this]
    norm_num
  have h2 : roundHalfEven (3/5 : ℚ) = 1 := by
    have : ⌊(3/5 : ℚ)⌋ = 0 := by norm_num
    unfold roundHalfEven
    rw [this]
    norm_num
  have h0 : roundHalfEven (0 : ℚ) = 0 := by
    have := roundHalfEven_intCast 0
    simpa using this
  refine ⟨by norm_num, by rw [distSq_eq]; norm_num, ?_⟩
  unfold quantize_vertices quantizePoint quantizeCoord
  simp only [List.map]
  rw [div_one, div_one, div_one]
  rw [h0, h1, h2]
  norm_num

/-- C5 (amended): two vertices whose Euclidean distance is below half
the (positive) grid unit quantize to coordinates that differ by at most
one grid step per axis (they need not be identical). -/
theorem quantize_vertices_close_within_grid (g : ℚ) (v w : Vec3) (hg : 0 < g)
    (h : distSq v w < (g/2)^2) :
    |(quantizePoint g v).1 - (quantizePoint g w).1| ≤ g ∧
      |(quantizePoint g v).2.1 - (quantizePoint g w).2.1| ≤ g ∧
      |(quantizePoint g v).2.2 - (quantizePoint g w).2.2| ≤ g := by
  rw [distSq_eq] at h
  have hg2 : (0:ℚ) ≤ g/2 := by linarith
  have coord : ∀ a b : ℚ, (a - b)^2 ≤ (v.1 - w.1)^2 + (v.2.1 - w.2.1)^2 + (v.2.2 - w.2.2)^2 →
      |quantizeCoord g a - quantizeCoord g b| ≤ g := by
    intro a b hsq
    apply quantizeCoord_close g a b hg
    apply abs_lt_of_sq_lt_sq _ hg2
    calc (a - b)^2 ≤ (v.1 - w.1)^2 + (v.2.1 - w.2.1)^2 + (v.2.2 - w.2.2)^2 := hsq
    _ < (g/2)^2 := h
  refine ⟨coord _ _ ?_, coord _ _ ?_, coord _ _ ?_⟩ <;> nlinarith [sq_nonneg (v.1 - w.1),
    sq_nonneg (v.2.1 - w.2.1), sq_nonneg (v.2.2 - w.2.2)]

/-- Witness for C5 (amended) at `g = 1` and the two counterexample vertices. -/
theorem quantize_vertices_close_within_grid_witness :
    (0:ℚ) < 1 ∧ distSq (2/5, 0, 0) (3/5, 0, 0) < ((1:ℚ)/2)^2 ∧
      |(quantizePoint 1 ((2:ℚ)/5, 0, 0)).1 - (quantizePoint 1 ((3:ℚ)/5, 0, 0)).1| ≤ 1 ∧
      |(quantizePoint 1 ((2:ℚ)/5, 0, 0)).2.1 - (quantizePoint 1 ((3:ℚ)/5, 0, 0)).2.1| ≤ 1 ∧
      |(quantizePoint 1 ((2:ℚ)/5, 0, 0)).2.2 - (quantizePoint 1 ((3:ℚ)/5, 0, 0)).2.2| ≤ 1 :=
  ⟨by norm_num, by rw [distSq_eq]; norm_num,
    quantize_vertices_close_within_grid 1 _ _ (by norm_num) (by rw [distSq_eq]; norm_num)⟩

/-! ## Numeric formatting (`format_number`) -/

theorem renderFixed_100_0 : renderFixed 100 0 = ['1', '0', '0'] := by
  unfold renderFixed
  rw [show |(100:ℚ)| * 10 ^ 0 = ((100:ℤ) : ℚ) by norm_num, roundHalfEven_intCast]
  rw [if_neg (by norm_num : ¬(100:ℚ) < 0)]
  rfl

theorem renderFixed_0_0 : renderFixed 0 0 = ['0'] := by
  unfold renderFixed
  rw [show |(0:ℚ)| * 10 ^ 0 = ((0:ℤ) : ℚ) by norm_num, roundHalfEven_intCast]
  rw [if_neg (by norm_num : ¬(0:ℚ) < 0)]
  rfl

/-- C3 (code bug): at precision 0 the rendered string has no decimal
point, so `rstrip('0')` strips significant integer zeros:
`format_number(100, 0)` returns `"1"` (the value 1, not 100) and
`format_number(0, 0)` returns the empty string. -/
theorem format_number_precision0_bug :
    format_number 100 0 = "1" ∧ format_number 0 0 = "" := by
  constructor
  · show format_number 100 0 = "1"
    unfold format_number
    rw [renderFixed_100_0]
    rfl
  · show format_number 0 0 = ""
    unfold format_number
    rw [renderFixed_0_0]
    rfl

/-! ## Zero-area filtering (`remove_zero_area_triangles`) -/

theorem normSq_nonneg (a : Vec3) : 0 ≤ normSq a := by
  unfold normSq dotQ
  nlinarith [mul_self_nonneg a.1, mul_self_nonneg a.2.1, mul_self_nonneg a.2.2]

/-- The executable squared-norm comparison in the filter is equivalent
to the comparison `area > 1e-12` of the source on the real-valued area. -/
theorem triangleArea_gt_iff (vertices : List Vec3) (t : Tri) :
    1/10^12 < triangleArea vertices t ↔ (4:ℚ)/10^24 < normSq (crossOf vertices t) := by
  unfold triangleArea
  rw [lt_div_iff₀ (by norm_num : (0:ℝ) < 2)]
  rw [show (1:ℝ)/10^12 * 2 = 2/10^12 by norm_num]
  rw [Real.lt_sqrt (by norm_num : (0:ℝ) ≤ 2/10^12)]
  rw [show ((2:ℝ)/10^12)^2 = ((4/10^24 : ℚ) : ℝ) by push_cast; norm_num]
  exact Rat.cast_lt

/-- C6 (amended): the filter keeps a triangle iff its area is *strictly*
above `1e-12`; at exactly `1e-12` the triangle is removed (the source
compares with `>`, not `>=`). -/
theorem remove_zero_area_mem_iff (vertices : List Vec3) (faces : List Tri) (t : Tri) :
    t ∈ remove_zero_area_triangles vertices faces ↔
      t ∈ faces ∧ 1/10^12 < triangleArea vertices t := by
  unfold remove_zero_area_triangles
  rw [List.mem_filter]
  constructor
  · rintro ⟨h1, h2⟩
    exact ⟨h1, (triangleArea_gt_iff vertices t).mpr (of_decide_eq_true h2)⟩
  · rintro ⟨h1, h2⟩
    exact ⟨h1, decide_eq_true ((triangleArea_gt_iff vertices t).mp h2)⟩

/-- C6 (counterexample): a triangle of area exactly `1e-12` — not below
the epsilon — is nonetheless removed. -/
theorem remove_zero_area_boundary_cex :
    triangleArea [(0, 0, 0), (0, 1, 0), (0, 0, 2/10^12)] (0, 1, 2) = 1/10^12 ∧
      remove_zero_area_triangles [(0, 0, 0), (0, 1, 0), (0, 0, 2/10^12)] [(0, 1, 2)] = [] := by
  have hcross : crossOf [((0:ℚ), (0:ℚ), (0:ℚ)), (0, 1, 0), (0, 0, 2/10^12)] (0, 1, 2)
      = (2/10^12, 0, 0) := by
    show face_normal (0, 0, 0) (0, 1, 0) (0, 0, 2/10^12) = (2/10^12, 0, 0)
    unfold face_normal cross vsub
    norm_num
  have hval : normSq (crossOf [((0:ℚ), (0:ℚ), (0:ℚ)), (0, 1, 0), (0, 0, 2/10^12)] (0, 1, 2))
      = 4/10^24 := by
    rw [hcross]
    unfold normSq dotQ
    norm_num
  constructor
  · unfold triangleArea
    rw [hval]
    rw [show ((4/10^24 : ℚ) : ℝ) = (2/10^12) * (2/10^12) by push_cast; norm_num]
    rw [Real.sqrt_mul_self (by norm_num : (0:ℝ) ≤ 2/10^12)]
    norm_num
  · unfold remove_zero_area_triangles
    rw [show ([(0, 1, 2)] : List Tri) = (0, 1, 2) :: [] from rfl, List.filter_cons]
    rw [decide_eq_false (by rw [hval]; exact lt_irrefl _)]
    rfl

/-! ## Boundary-walk lemmas -/

theorem dget_some_mem {α β : Type} [BEq α] [LawfulBEq α] {k : α} {d : List (α × β)} {v : β}
    (h : dget k d = some v) : ∃ p ∈ d, p.1 = k ∧ p.2 = v := by
  unfold dget at h
  rcases Option.map_eq_some'.mp h with ⟨a, ha, hv⟩
  refine ⟨a, List.mem_of_find?_eq_some ha, ?_, hv⟩
  have := List.find?_some ha
  exact beq_iff_eq.mp this

theorem derase_subset {α β : Type} [BEq α] (k : α) (d : List (α × β)) :
    ∀ p ∈ derase k d, p ∈ d := by
  intro p hp
  exact (List.mem_filter.mp hp).1

theorem loopWalk_revisit_nil :
    ∀ (f : ℕ) (e : List (ℕ × ℕ)) (l : List ℕ) (c : ℕ),
      (loopWalk f e l c).2 = WalkExit.revisit → (loopWalk f e l c).1 = [] := by
  intro f
  induction f with
  | zero => intro e l c h; simp [loopWalk] at h
  | succ n ih =>
    intro e l c h
    rw [loopWalk] at h ⊢
    cases hd : dget c e with
    | none => simp [hd] at h
    | some nxt =>
      rw [hd] at h
      dsimp only at h ⊢
      split_ifs at h ⊢ with h1 h2 h3
      all_goals first
        | rfl
        | exact ih _ _ _ h

theorem loopWalk_length_le :
    ∀ (f : ℕ) (e : List (ℕ × ℕ)) (l : List ℕ) (c : ℕ),
      l.length ≤ 1000 → ((loopWalk f e l c).1).length ≤ 1001 := by
  intro f
  induction f with
  | zero =>
    intro e l c h
    rw [loopWalk]
    exact h.trans (by norm_num)
  | succ n ih =>
    intro e l c h
    rw [loopWalk]
    cases hd : dget c e with
    | none => exact h.trans (by norm_num)
    | some nxt =>
      dsimp only
      split_ifs with h1 h2 h3
      · calc (l ++ [nxt]).length = l.length + 1 := by simp
        _ ≤ 1001 := by omega
      · simp
      · simp
      · exact ih _ _ _ (Nat.not_lt.mp h3)

theorem loopWalk_mem :
    ∀ (f : ℕ) (e : List (ℕ × ℕ)) (l : List ℕ) (c : ℕ) (x : ℕ),
      x ∈ (loopWalk f e l c).1 → x ∈ l ∨ ∃ p ∈ e, x = p.2 := by
  intro f
  induction f with
  | zero =>
    intro e l c x hx
    rw [loopWalk] at hx
    exact Or.inl hx
  | succ n ih =>
    intro e l c x hx
    rw [loopWalk] at hx
    cases hd : dget c e with
    | none =>
      rw [hd] at hx
      exact Or.inl hx
    | some nxt =>
      rw [hd] at hx
      dsimp only at hx
      rcases dget_some_mem hd with ⟨p, hpe, hpk, hpv⟩
      split_ifs at hx with h1 h2 h3
      · rcases List.mem_append.mp hx with h | h
        · exact Or.inl h
        · exact Or.inr ⟨p, hpe, by simpa [hpv] using h⟩
      · simp at hx
      · simp at hx
      · rcases ih _ _ _ _ hx with h | h
        · rcases List.mem_append.mp h with h | h
          · exact Or.inl h
          · exact Or.inr ⟨p, hpe, by simpa [hpv] using h⟩
        · rcases h with ⟨q, hq, hxq⟩
          exact Or.inr ⟨q, derase_subset _ _ _ hq, hxq⟩

theorem regionWalk_length (triangles : List Tri) (group : List ℕ) :
    ((regionWalk triangles group).1).length ≤ 1001 := by
  rcases hE : buildEdges (buildEdgeCount triangles group) with _ | ⟨⟨s, b⟩, tl⟩
  · simp [regionWalk, hE]
  · simp only [regionWalk, hE]
    exact loopWalk_length_le _ _ _ _ (by simp)

theorem regionWalk_revisit_nil (triangles : List Tri) (group : List ℕ)
    (h : (regionWalk triangles group).2 = WalkExit.revisit) :
    (regionWalk triangles group).1 = [] := by
  rcases hE : buildEdges (buildEdgeCount triangles group) with _ | ⟨⟨s, b⟩, tl⟩
  · simp only [regionWalk, hE] at h
    simp at h
  · simp only [regionWalk, hE] at h ⊢
    exact loopWalk_revisit_nil _ _ _ _ h

theorem regionPoly_some_shape (triangles : List Tri) (group : List ℕ) (p : List ℕ)
    (h : regionPoly triangles group = some p) :
    p = ((regionWalk triangles group).1).dropLast.reverse ∧
      4 ≤ ((regionWalk triangles group).1).length := by
  simp only [regionPoly] at h
  split_ifs at h with h1 h2 h3
  · exact ⟨(Option.some.inj h).symm, h3.1⟩

/-- C8: a region whose boundary walk revisits a vertex before closing,
or whose surviving boundary edges number fewer than 3, contributes no
polygon; the polygons of the other regions are computed exactly as if the bad
region were absent, and the full merge is the per-region collection over
the computed groups. -/
theorem regionPoly_bad_region_skipped (vertices : List Vec3) (triangles : List Tri) (tol : ℚ)
    (g : List ℕ) (gs1 gs2 : List (List ℕ))
    (hbad : (regionWalk triangles g).2 = WalkExit.revisit ∨ (buildEdgeCount triangles g).length < 3) :
    regionPoly triangles g = none ∧
      (gs1 ++ g :: gs2).filterMap (regionPoly triangles)
        = (gs1 ++ gs2).filterMap (regionPoly triangles) ∧
      merge_coplanar_triangles vertices triangles tol
        = (triangleGroups vertices triangles tol).filterMap (regionPoly triangles) := by
  have hnone : regionPoly triangles g = none := by
    rcases hbad with hrev | hcount
    · simp only [regionPoly]
      split_ifs with h1 h2 h3
      · rfl
      · rfl
      · exfalso
        rw [regionWalk_revisit_nil _ _ hrev] at h3
        simp at h3
      · rfl
    · simp only [regionPoly]
      rw [if_pos hcount]
  refine ⟨hnone, ?_, rfl⟩
  rw [List.filterMap_append, List.filterMap_append, List.filterMap_cons, hnone]

/-- Witness for C8: a two-lobe region whose walk revisits a vertex. -/
theorem regionPoly_bad_region_skipped_witness :
    ((regionWalk [(0, 1, 2), (1, 3, 4)] [0, 1]).2 = WalkExit.revisit ∨
        (buildEdgeCount [(0, 1, 2), (1, 3, 4)] [0, 1]).length < 3) ∧
      regionPoly [(0, 1, 2), (1, 3, 4)] [0, 1] = none ∧
      ([[2, 3]] ++ [0, 1] :: []).filterMap (regionPoly [(0, 1, 2), (1, 3, 4)])
        = ([[2, 3]] ++ []).filterMap (regionPoly [(0, 1, 2), (1, 3, 4)]) ∧
      merge_coplanar_triangles [] [(0, 1, 2), (1, 3, 4)] (1/10^4)
        = (triangleGroups [] [(0, 1, 2), (1, 3, 4)] (1/10^4)).filterMap
            (regionPoly [(0, 1, 2), (1, 3, 4)]) :=
  ⟨Or.inl (by decide),
    regionPoly_bad_region_skipped [] [(0, 1, 2), (1, 3, 4)] (1/10^4) [0, 1] [[2, 3]] []
      (Or.inl (by decide))⟩

/-! ## Association-list dictionary lemmas -/

theorem dmem_iff {α β : Type} [BEq α] [LawfulBEq α] {k : α} {d : List (α × β)} :
    dmem k d = true ↔ ∃ p ∈ d, p.1 = k := by
  simp [dmem, List.any_eq_true, beq_iff_eq]

theorem dget_addKey_other (m : List ((ℕ × ℕ) × List ℕ)) (k : ℕ × ℕ) (i : ℕ) (k2 : ℕ × ℕ)
    (h : k2 ≠ k) : dget k2 (addKey m k i) = dget k2 m := by
  unfold addKey
  by_cases hm : dmem k m
  · rw [if_pos hm]
    unfold dget
    rw [List.find?_map]
    have hcomp : ((fun e : (ℕ × ℕ) × List ℕ => e.1 == k2) ∘
        (fun e : (ℕ × ℕ) × List ℕ => if e.1 == k then (e.1, e.2 ++ [i]) else e))
        = fun e : (ℕ × ℕ) × List ℕ => e.1 == k2 := by
      funext e
      by_cases hek : e.1 == k
      · simp [Function.comp, hek]
      · simp [Function.comp, hek]
    rw [hcomp]
    cases hf : m.find? (fun e => e.1 == k2) with
    | none => rfl
    | some e =>
      have hek2 : e.1 = k2 := by simpa using List.find?_some hf
      have hne : e.1 ≠ k := by
        rw [hek2]
        exact h
      simp [hne]
  · rw [if_neg hm]
    unfold dget
    rw [List.find?_append]
    have hkk : (k == k2) = false := by
      rw [beq_eq_false_iff_ne]
      exact Ne.symm h
    have h2 : List.find? (fun e : (ℕ × ℕ) × List ℕ => e.1 == k2) [(k, [i])] = none := by
      simp [List.find?, hkk]
    rw [h2]
    cases m.find? (fun e => e.1 == k2) <;> rfl

theorem dget_addKey_self (m : List ((ℕ × ℕ) × List ℕ)) (k : ℕ × ℕ) (i : ℕ) :
    (dget k (addKey m k i)).getD [] = (dget k m).getD [] ++ [i] := by
  unfold addKey
  by_cases hm : dmem k m
  · rw [if_pos hm]
    unfold dget
    rw [List.find?_map]
    have hcomp : ((fun e : (ℕ × ℕ) × List ℕ => e.1 == k) ∘
        (fun e : (ℕ × ℕ) × List ℕ => if e.1 == k then (e.1, e.2 ++ [i]) else e))
        = fun e : (ℕ × ℕ) × List ℕ => e.1 == k := by
      funext e
      by_cases hek : e.1 == k
      · simp [Function.comp, hek]
      · simp [Function.comp, hek]
    rw [hcomp]
    cases hf : m.find? (fun e => e.1 == k) with
    | none =>
      exfalso
      rcases dmem_iff.mp hm with ⟨p, hp, hpk⟩
      exact (List.find?_eq_none.mp hf p hp) (beq_iff_eq.mpr hpk)
    | some e =>
      have heq : e.1 = k := by
        have h2 := List.find?_some hf
        simpa using h2
      simp [heq]
  · rw [if_neg hm]
    unfold dget
    rw [List.find?_append]
    have h1 : m.find? (fun e : (ℕ × ℕ) × List ℕ => e.1 == k) = none := by
      rw [List.find?_eq_none]
      intro p hp hpk
      exact absurd (dmem_iff.mpr ⟨p, hp, beq_iff_eq.mp hpk⟩) hm
    rw [h1]
    simp [List.find?]

theorem mem_dgetD_addKey {m : List ((ℕ × ℕ) × List ℕ)} {k : ℕ × ℕ} {i : ℕ} {k2 : ℕ × ℕ}
    {y : ℕ} :
    y ∈ (dget k2 (addKey m k i)).getD [] ↔
      y ∈ (dget k2 m).getD [] ∨ (k2 = k ∧ y = i) := by
  by_cases hkk : k2 = k
  · subst hkk
    rw [dget_addKey_self]
    simp
  · rw [dget_addKey_other m k i k2 hkk]
    simp [hkk]

theorem mem_dgetD_foldKeys (ks : List (ℕ × ℕ)) (i : ℕ) (m : List ((ℕ × ℕ) × List ℕ))
    (k2 : ℕ × ℕ) (y : ℕ) :
    y ∈ (dget k2 (ks.foldl (fun m k => addKey m k i) m)).getD [] ↔
      y ∈ (dget k2 m).getD [] ∨ (k2 ∈ ks ∧ y = i) := by
  induction ks generalizing m with
  | nil => simp
  | cons k ks ih =>
    rw [List.foldl_cons, ih, mem_dgetD_addKey]
    simp only [List.mem_cons]
    tauto

theorem mem_dgetD_foldTris (l : List (ℕ × Tri)) (m : List ((ℕ × ℕ) × List ℕ))
    (k2 : ℕ × ℕ) (y : ℕ) :
    y ∈ (dget k2 (l.foldl (fun m p => (triKeys p.2).foldl (fun m k => addKey m k p.1) m) m)).getD []
      ↔ y ∈ (dget k2 m).getD [] ∨ ∃ p ∈ l, y = p.1 ∧ k2 ∈ triKeys p.2 := by
  induction l generalizing m with
  | nil => simp
  | cons p l ih =>
    rw [List.foldl_cons, ih, mem_dgetD_foldKeys]
    simp only [List.mem_cons]
    constructor
    · rintro (((h | ⟨hk, hy⟩)) | ⟨q, hq, hyq, hkq⟩)
      · exact Or.inl h
      · exact Or.inr ⟨p, Or.inl rfl, hy, hk⟩
      · exact Or.inr ⟨q, Or.inr hq, hyq, hkq⟩
    · rintro (h | ⟨q, (rfl | hq), hyq, hkq⟩)
      · exact Or.inl (Or.inl h)
      · exact Or.inl (Or.inr ⟨hkq, hyq⟩)
      · exact Or.inr ⟨q, hq, hyq, hkq⟩

theorem mem_em (triangles : List Tri) (k : ℕ × ℕ) (y : ℕ) :
    y ∈ (dget k (buildEdgeMap triangles)).getD [] ↔
      ∃ p ∈ triangles.enum, y = p.1 ∧ k ∈ triKeys p.2 := by
  unfold buildEdgeMap
  rw [mem_dgetD_foldTris]
  simp [dget]

theorem mem_em_iff (triangles : List Tri) (k : ℕ × ℕ) (y : ℕ) :
    y ∈ (dget k (buildEdgeMap triangles)).getD [] ↔
      y < triangles.length ∧ k ∈ triKeys (triangles.getD y (0, 0, 0)) := by
  rw [mem_em]
  constructor
  · rintro ⟨⟨i, t⟩, hp, rfl, hk⟩
    rcases List.mem_enum hp with ⟨hi, ht⟩
    refine ⟨hi, ?_⟩
    rw [List.getD_eq_getElem?_getD, List.getElem?_eq_getElem hi]
    simpa [← ht] using hk
  · rintro ⟨hy, hk⟩
    refine ⟨(y, triangles.getD y (0, 0, 0)), ?_, rfl, hk⟩
    have hget : triangles.getD y (0, 0, 0) = triangles[y] := by
      rw [List.getD_eq_getElem?_getD, List.getElem?_eq_getElem hy]
      rfl
    rw [hget]
    have hlen : y < triangles.enum.length := by simpa using hy
    have := List.getElem_enum triangles y hlen
    rw [← this]
    exact List.getElem_mem hlen

theorem mem_neighborList (triangles : List Tri) (t : Tri) (y : ℕ) :
    y ∈ neighborList (buildEdgeMap triangles) t ↔
      y < triangles.length ∧
        ∃ k ∈ triKeys t, k ∈ triKeys (triangles.getD y (0, 0, 0)) := by
  unfold neighborList
  rw [List.mem_flatten]
  constructor
  · rintro ⟨l, hl, hyl⟩
    rcases List.mem_map.mp hl with ⟨k, hk, rfl⟩
    rcases (mem_em_iff triangles k y).mp hyl with ⟨hy, hky⟩
    exact ⟨hy, k, hk, hky⟩
  · rintro ⟨hy, k, hk, hky⟩
    exact ⟨(dget k (buildEdgeMap triangles)).getD [], List.mem_map.mpr ⟨k, hk, rfl⟩,
      (mem_em_iff triangles k y).mpr ⟨hy, hky⟩⟩

/-! ## Flood-fill lemmas -/

theorem floodLoop_nil (test : ℕ → ℕ → Bool) (triangles : List Tri)
    (em : List ((ℕ × ℕ) × List ℕ)) (f : ℕ) (g u : List ℕ) :
    floodLoop test triangles em f [] g u = (g, u) := by
  cases f with
  | zero => rfl
  | succ n => rfl

theorem floodStep_spec (test : ℕ → ℕ → Bool) (curr : ℕ) (nbrs : List ℕ) :
    ∀ (q g u : List ℕ),
      ∃ adds : List ℕ,
        floodStep test curr nbrs (q, g, u)
            = (adds.reverse ++ q, g ++ adds, adds.reverse ++ u) ∧
          adds.Nodup ∧
          (∀ a ∈ adds, a ∉ u ∧ a ∈ nbrs ∧ test curr a = true) ∧
          (∀ y ∈ nbrs, test curr y = true → y ∈ adds.reverse ++ u) := by
  induction nbrs with
  | nil =>
    intro q g u
    exact ⟨[], by simp [floodStep], List.nodup_nil, by simp, by simp⟩
  | cons x xs ih =>
    intro q g u
    by_cases hxu : x ∈ u
    · rcases ih q g u with ⟨adds, heq, hnd, hprop, hcompl⟩
      refine ⟨adds, ?_, hnd,
        fun a ha => ⟨(hprop a ha).1, List.mem_cons_of_mem _ (hprop a ha).2.1,
          (hprop a ha).2.2⟩, ?_⟩
      · unfold floodStep at heq ⊢
        rw [List.foldl_cons]
        dsimp only
        rw [if_pos hxu]
        exact heq
      · intro y hy ht
        rcases List.mem_cons.mp hy with rfl | hy2
        · exact List.mem_append.mpr (Or.inr hxu)
        · exact hcompl y hy2 ht
    · by_cases htest : test curr x = true
      · rcases ih (x :: q) (g ++ [x]) (x :: u) with ⟨adds, heq, hnd, hprop, hcompl⟩
        refine ⟨x :: adds, ?_, ?_, ?_, ?_⟩
        · unfold floodStep at heq ⊢
          rw [List.foldl_cons]
          dsimp only
          rw [if_neg hxu, if_pos htest]
          rw [heq]
          simp
        · exact List.nodup_cons.mpr
            ⟨fun hx => (hprop x hx).1 (List.mem_cons_self _ _), hnd⟩
        · intro a ha
          rcases List.mem_cons.mp ha with rfl | ha2
          · exact ⟨hxu, List.mem_cons_self _ _, htest⟩
          · rcases hprop a ha2 with ⟨hnu, hin, ht⟩
            exact ⟨fun h => hnu (List.mem_cons_of_mem _ h), List.mem_cons_of_mem _ hin, ht⟩
        · intro y hy ht
          rcases List.mem_cons.mp hy with rfl | hy2
          · simp
          · have hmem := hcompl y hy2 ht
            simp only [List.mem_append, List.mem_reverse, List.mem_cons] at hmem ⊢
            tauto
      · rcases ih q g u with ⟨adds, heq, hnd, hprop, hcompl⟩
        refine ⟨adds, ?_, hnd,
          fun a ha => ⟨(hprop a ha).1, List.mem_cons_of_mem _ (hprop a ha).2.1,
            (hprop a ha).2.2⟩, ?_⟩
        · unfold floodStep at heq ⊢
          rw [List.foldl_cons]
          dsimp only
          rw [if_neg hxu, if_neg htest]
          exact heq
        · intro y hy ht
          rcases List.mem_cons.mp hy with rfl | hy2
          · exact absurd ht htest
          · exact hcompl y hy2 ht

theorem unusedCount_le (n : ℕ) (u : List ℕ) : unusedCount n u ≤ n := by
  unfold unusedCount
  calc ((Finset.range n).filter (fun x => x ∉ u)).card
      ≤ (Finset.range n).card := Finset.card_filter_le _ _
  _ = n := Finset.card_range n

theorem unusedCount_cons (n a : ℕ) (u : List ℕ) (han : a < n) (hau : a ∉ u) :
    unusedCount n (a :: u) + 1 = unusedCount n u := by
  unfold unusedCount
  have hset : (Finset.range n).filter (fun x => x ∉ a :: u)
      = ((Finset.range n).filter (fun x => x ∉ u)).erase a := by
    ext x
    simp only [Finset.mem_filter, Finset.mem_erase, Finset.mem_range, List.mem_cons]
    tauto
  rw [hset]
  apply Finset.card_erase_add_one
  simp only [Finset.mem_filter, Finset.mem_range]
  exact ⟨han, hau⟩

theorem unusedCount_appendRev (n : ℕ) :
    ∀ (adds u : List ℕ), adds.Nodup → (∀ a ∈ adds, a ∉ u ∧ a < n) →
      unusedCount n (adds.reverse ++ u) + adds.length = unusedCount n u := by
  intro adds
  induction adds with
  | nil => intro u _ _; simp
  | cons x xs ih =>
    intro u hnd h
    have hx := h x (List.mem_cons_self _ _)
    have hstep : unusedCount n (x :: u) + 1 = unusedCount n u :=
      unusedCount_cons n x u hx.2 hx.1
    have hxs : ∀ a ∈ xs, a ∉ x :: u ∧ a < n := by
      intro a ha
      rcases h a (List.mem_cons_of_mem _ ha) with ⟨hnu, hlt⟩
      refine ⟨?_, hlt⟩
      intro hmem
      rcases List.mem_cons.mp hmem with rfl | hmem2
      · exact (List.nodup_cons.mp hnd).1 ha
      · exact hnu hmem2
    have hrec := ih (x :: u) (List.nodup_cons.mp hnd).2 hxs
    have hshape : (x :: xs).reverse ++ u = xs.reverse ++ (x :: u) := by
      rw [List.reverse_cons, List.append_assoc]
      rfl
    rw [hshape]
    simp only [List.length_cons]
    omega

theorem floodLoop_spec (test : ℕ → ℕ → Bool) (triangles : List Tri) :
    ∀ (f : ℕ) (q g u : List ℕ),
      q.length + unusedCount triangles.length u ≤ f →
      (∀ x ∈ q, x ∈ u) →
      (∀ x ∈ u, x ∉ q → ∀ y, adjacent test triangles x y → y ∈ u) →
      ∃ adds : List ℕ,
        (floodLoop test triangles (buildEdgeMap triangles) f q g u).1 = g ++ adds ∧
          (∀ x, x ∈ (floodLoop test triangles (buildEdgeMap triangles) f q g u).2 ↔
            x ∈ adds ∨ x ∈ u) ∧
          adds.Nodup ∧
          (∀ a ∈ adds, a ∉ u ∧ a < triangles.length) ∧
          (∀ x ∈ (floodLoop test triangles (buildEdgeMap triangles) f q g u).2,
            ∀ y, adjacent test triangles x y →
              y ∈ (floodLoop test triangles (buildEdgeMap triangles) f q g u).2) := by
  intro f
  induction f with
  | zero =>
    intro q g u hfuel hq hcl
    have hq0 : q = [] := List.length_eq_zero.mp (by omega)
    subst hq0
    rw [floodLoop_nil]
    exact ⟨[], by simp, by simp, List.nodup_nil, by simp,
      fun x hx y hadj => hcl x hx (by simp) y hadj⟩
  | succ f ih =>
    intro q g u hfuel hq hcl
    cases q with
    | nil =>
      rw [floodLoop_nil]
      exact ⟨[], by simp, by simp, List.nodup_nil, by simp,
        fun x hx y hadj => hcl x hx (by simp) y hadj⟩
    | cons curr rest =>
      rcases floodStep_spec test curr
          (neighborList (buildEdgeMap triangles) (triangles.getD curr (0, 0, 0))) rest g u
        with ⟨adds1, hst, hnd1, hprop1, hcompl1⟩
      have hstep : floodLoop test triangles (buildEdgeMap triangles) (f + 1) (curr :: rest) g u
          = floodLoop test triangles (buildEdgeMap triangles) f
              (adds1.reverse ++ rest) (g ++ adds1) (adds1.reverse ++ u) := by
        show floodLoop test triangles (buildEdgeMap triangles) f
            (floodStep test curr
              (neighborList (buildEdgeMap triangles) (triangles.getD curr (0, 0, 0)))
              (rest, g, u)).1
            (floodStep test curr
              (neighborList (buildEdgeMap triangles) (triangles.getD curr (0, 0, 0)))
              (rest, g, u)).2.1
            (floodStep test curr
              (neighborList (buildEdgeMap triangles) (triangles.getD curr (0, 0, 0)))
              (rest, g, u)).2.2 = _
        rw [hst]
      rw [hstep]
      have hadds1 : ∀ a ∈ adds1, a ∉ u ∧ a < triangles.length := by
        intro a ha
        rcases hprop1 a ha with ⟨hnu, hin, _⟩
        exact ⟨hnu, ((mem_neighborList _ _ _).mp hin).1⟩
      have hcount := unusedCount_appendRev triangles.length adds1 u hnd1 hadds1
      have hfuel2 : (adds1.reverse ++ rest).length
          + unusedCount triangles.length (adds1.reverse ++ u) ≤ f := by
        simp only [List.length_append, List.length_reverse] at *
        simp only [List.length_cons] at hfuel
        omega
      have hq2 : ∀ x ∈ adds1.reverse ++ rest, x ∈ adds1.reverse ++ u := by
        intro x hx
        rcases List.mem_append.mp hx with hx | hx
        · exact List.mem_append.mpr (Or.inl hx)
        · exact List.mem_append.mpr (Or.inr (hq x (List.mem_cons_of_mem _ hx)))
      have hcl2 : ∀ x ∈ adds1.reverse ++ u, x ∉ adds1.reverse ++ rest →
          ∀ y, adjacent test triangles x y → y ∈ adds1.reverse ++ u := by
        intro x hx hnx y hadj
        rcases List.mem_append.mp hx with hx1 | hx1
        · exact absurd (List.mem_append.mpr (Or.inl hx1)) hnx
        · by_cases hxc : x = curr
          · subst hxc
            exact hcompl1 y hadj.1 hadj.2
          · have hxq : x ∉ curr :: rest := by
              intro hmem
              rcases List.mem_cons.mp hmem with rfl | hmem2
              · exact hxc rfl
              · exact hnx (List.mem_append.mpr (Or.inr hmem2))
            exact List.mem_append.mpr (Or.inr (hcl x hx1 hxq y hadj))
      rcases ih (adds1.reverse ++ rest) (g ++ adds1) (adds1.reverse ++ u) hfuel2 hq2 hcl2
        with ⟨adds2, hg2, hu2, hnd2, hprop2, hclose2⟩
      refine ⟨adds1 ++ adds2, by rw [hg2, List.append_assoc], ?_, ?_, ?_, hclose2⟩
      · intro x
        rw [hu2 x]
        simp only [List.mem_append, List.mem_reverse]
        tauto
      · rw [List.nodup_append]
        refine ⟨hnd1, hnd2, ?_⟩
        intro a ha1 ha2
        exact (hprop2 a ha2).1 (List.mem_append.mpr (Or.inl (List.mem_reverse.mpr ha1)))
      · intro a ha
        rcases List.mem_append.mp ha with ha | ha
        · exact hadds1 a ha
        · rcases hprop2 a ha with ⟨hnu, hlt⟩
          exact ⟨fun h => hnu (List.mem_append.mpr (Or.inr h)), hlt⟩

/-! ## Region-growth invariants -/

theorem adjacent_symm (test : ℕ → ℕ → Bool) (triangles : List Tri)
    (htest : ∀ i j, test i j = test j i) (x y : ℕ) (hx : x < triangles.length)
    (h : adjacent test triangles x y) : adjacent test triangles y x := by
  rcases h with ⟨hnb, ht⟩
  rcases (mem_neighborList triangles _ y).mp hnb with ⟨hy, k, hk1, hk2⟩
  refine ⟨(mem_neighborList triangles _ x).mpr ⟨hx, k, hk2, hk1⟩, ?_⟩
  rw [htest y x]
  exact ht

theorem groupStep_inv (test : ℕ → ℕ → Bool) (triangles : List Tri)
    (htest : ∀ i j, test i j = test j i) (st : List ℕ × List (List ℕ)) (i : ℕ)
    (hi : i < triangles.length) (hinv : GroupsInv test triangles st) :
    GroupsInv test triangles (groupStep test triangles (buildEdgeMap triangles) st i) ∧
      i ∈ (groupStep test triangles (buildEdgeMap triangles) st i).1 ∧
      (∀ x ∈ st.1, x ∈ (groupStep test triangles (buildEdgeMap triangles) st i).1) := by
  rcases hinv with ⟨hcorr, hnd, hrange, hclosed, hgroups⟩
  unfold groupStep
  by_cases hiu : i ∈ st.1
  · rw [if_pos hiu]
    exact ⟨⟨hcorr, hnd, hrange, hclosed, hgroups⟩, hiu, fun x hx => hx⟩
  · rw [if_neg hiu]
    have hq : ∀ x ∈ [i], x ∈ i :: st.1 := by
      intro x hx
      rcases List.mem_singleton.mp hx with rfl
      exact List.mem_cons_self _ _
    have hcl : ∀ x ∈ i :: st.1, x ∉ [i] →
        ∀ y, adjacent test triangles x y → y ∈ i :: st.1 := by
      intro x hx hnx y hadj
      rcases List.mem_cons.mp hx with rfl | hx2
      · exact absurd (List.mem_singleton.mpr rfl) hnx
      · exact List.mem_cons_of_mem _ (hclosed x hx2 y hadj)
    have hfuel : ([i] : List ℕ).length + unusedCount triangles.length (i :: st.1)
        ≤ triangles.length + 1 := by
      have := unusedCount_le triangles.length (i :: st.1)
      simp only [List.length_singleton]
      omega
    rcases floodLoop_spec test triangles (triangles.length + 1) [i] [i] (i :: st.1)
        hfuel hq hcl with ⟨adds, hg, hu, hnda, hpa, hclose⟩
    show GroupsInv test triangles
        ((floodLoop test triangles (buildEdgeMap triangles) (triangles.length + 1)
            [i] [i] (i :: st.1)).2,
          st.2 ++ [(floodLoop test triangles (buildEdgeMap triangles) (triangles.length + 1)
            [i] [i] (i :: st.1)).1]) ∧ _ ∧ _
    rw [hg]
    have hmemg : ∀ x : ℕ, x ∈ ([i] ++ adds) ↔ x = i ∨ x ∈ adds := by
      intro x
      simp
    have hflat : ∀ x : ℕ, x ∈ (st.2 ++ [[i] ++ adds]).flatten ↔
        x ∈ st.2.flatten ∨ x = i ∨ x ∈ adds := by
      intro x
      simp only [List.flatten_append, List.mem_append]
      simp
      
    have hcorr2 : ∀ x, x ∈ (floodLoop test triangles (buildEdgeMap triangles)
        (triangles.length + 1) [i] [i] (i :: st.1)).2 ↔
        x ∈ st.2.flatten ∨ x = i ∨ x ∈ adds := by
      intro x
      rw [hu x, List.mem_cons, hcorr x]
      tauto
    refine ⟨⟨?_, ?_, ?_, ?_, ?_⟩, ?_, ?_⟩
    · intro x
      rw [hcorr2 x, hflat x]
    · have hgnd : ([i] ++ adds).Nodup := by
        refine List.nodup_cons.mpr ⟨?_, hnda⟩
        intro hmem
        exact ((hpa i hmem).1) (List.mem_cons_self _ _)
      have hdisj : ∀ x ∈ ([i] ++ adds), x ∉ st.2.flatten := by
        intro x hx
        rcases (hmemg x).mp hx with rfl | hx2
        · rw [← hcorr x]
          exact hiu
        · rw [← hcorr x]
          intro hmem
          exact (hpa x hx2).1 (List.mem_cons_of_mem _ hmem)
      rw [show st.2 ++ [[i] ++ adds] = st.2 ++ [[i] ++ adds] from rfl]
      rw [List.flatten_append]
      rw [List.nodup_append]
      refine ⟨hnd, by simpa using hgnd, ?_⟩
      intro a ha hmem
      have : a ∈ ([i] ++ adds) := by simpa using hmem
      exact hdisj a this ha
    · intro x hx
      rcases (hcorr2 x).mp hx with hx2 | rfl | hx2
      · exact hrange x ((hcorr x).mpr hx2)
      · exact hi
      · exact (hpa x hx2).2
    · intro x hx y hadj
      exact hclose x hx y hadj
    · intro g hgmem x hx y hadj
      rcases List.mem_append.mp hgmem with hg2 | hg2
      · exact hgroups g hg2 x hx y hadj
      · rcases List.mem_singleton.mp hg2 with rfl
        have hxlt : x < triangles.length := by
          rcases (hmemg x).mp hx with rfl | hx2
          · exact hi
          · exact (hpa x hx2).2
        have hxused : x ∈ (floodLoop test triangles (buildEdgeMap triangles)
            (triangles.length + 1) [i] [i] (i :: st.1)).2 := by
          rw [hcorr2 x]
          rcases (hmemg x).mp hx with rfl | hx2
          · exact Or.inr (Or.inl rfl)
          · exact Or.inr (Or.inr hx2)
        have hy := hclose x hxused y hadj
        rcases (hcorr2 y).mp hy with hy2 | hyi | hy2
        · exfalso
          have hyx := adjacent_symm test triangles htest x y hxlt hadj
          have hyu : y ∈ st.1 := (hcorr y).mpr hy2
          have hxu : x ∈ st.1 := hclosed y hyu x hyx
          rcases (hmemg x).mp hx with rfl | hx2
          · exact hiu hxu
          · exact (hpa x hx2).1 (List.mem_cons_of_mem _ hxu)
        · exact (hmemg y).mpr (Or.inl hyi)
        · exact (hmemg y).mpr (Or.inr hy2)
    · rw [hcorr2 i]
      exact Or.inr (Or.inl rfl)
    · intro x hx
      rw [hcorr2 x]
      exact Or.inl ((hcorr x).mp hx)

theorem foldGroups_inv (test : ℕ → ℕ → Bool) (triangles : List Tri)
    (htest : ∀ i j, test i j = test j i) :
    ∀ (l : List ℕ) (st : List ℕ × List (List ℕ)),
      (∀ i ∈ l, i < triangles.length) → GroupsInv test triangles st →
      GroupsInv test triangles
          (l.foldl (groupStep test triangles (buildEdgeMap triangles)) st) ∧
        (∀ i ∈ l, i ∈ (l.foldl (groupStep test triangles (buildEdgeMap triangles)) st).1) ∧
        (∀ x ∈ st.1, x ∈ (l.foldl (groupStep test triangles (buildEdgeMap triangles)) st).1) := by
  intro l
  induction l with
  | nil =>
    intro st _ hinv
    exact ⟨hinv, by simp, fun x hx => hx⟩
  | cons i l ih =>
    intro st hl hinv
    rcases groupStep_inv test triangles htest st i (hl i (List.mem_cons_self _ _)) hinv
      with ⟨hinv2, hi2, hmono2⟩
    rcases ih (groupStep test triangles (buildEdgeMap triangles) st i)
        (fun j hj => hl j (List.mem_cons_of_mem _ hj)) hinv2 with ⟨hinv3, hall3, hmono3⟩
    rw [List.foldl_cons]
    refine ⟨hinv3, ?_, ?_⟩
    · intro j hj
      rcases List.mem_cons.mp hj with rfl | hj2
      · exact hmono3 j hi2
      · exact hall3 j hj2
    · intro x hx
      exact hmono3 x (hmono2 x hx)

theorem computeGroups_spec (test : ℕ → ℕ → Bool) (triangles : List Tri)
    (htest : ∀ i j, test i j = test j i) :
    (∀ x, x ∈ (computeGroups test triangles).flatten ↔ x < triangles.length) ∧
      (computeGroups test triangles).flatten.Nodup ∧
      (∀ g ∈ computeGroups test triangles, ∀ x ∈ g, ∀ y,
        adjacent test triangles x y → y ∈ g) := by
  have hinit : GroupsInv test triangles ([], []) := by
    refine ⟨by simp, by simp, by simp, by simp, by simp⟩
  rcases foldGroups_inv test triangles htest (List.range triangles.length) ([], [])
      (fun i hi => List.mem_range.mp hi) hinit with ⟨⟨hcorr, hnd, hrange, _, hgroups⟩, hall, _⟩
  unfold computeGroups
  refine ⟨?_, hnd, hgroups⟩
  intro x
  constructor
  · intro hx
    exact hrange x ((hcorr x).mpr hx)
  · intro hx
    exact (hcorr x).mp (hall x (List.mem_range.mpr hx))

/-! ## Normal similarity: reduction to rational arithmetic -/

theorem normalDot_comm (c1 c2 : Vec3) : normalDot c1 c2 = normalDot c2 c1 := by
  unfold normalDot
  ring

theorem coplanarTest_symm (vertices : List Vec3) (triangles : List Tri) (tol : ℚ) :
    ∀ i j, coplanarTest vertices triangles tol i j = coplanarTest vertices triangles tol j i := by
  intro i j
  unfold coplanarTest
  rw [decide_eq_decide]
  unfold normalSimilar
  rw [normalDot_comm]

theorem sqrt_normSq_eq (c : Vec3) (q : ℚ) (hq : 0 ≤ q) (h : normSq c = q * q) :
    Real.sqrt ((normSq c : ℚ)) = (q : ℝ) := by
  rw [h]
  push_cast
  exact Real.sqrt_mul_self (by exact_mod_cast hq)

theorem normalDot_eq (c1 c2 : Vec3) (q1 q2 : ℚ) (hq1 : 0 ≤ q1) (hq2 : 0 ≤ q2)
    (h1 : normSq c1 = q1 * q1) (h2 : normSq c2 = q2 * q2) :
    normalDot c1 c2 = ((dotQ c1 c2 : ℚ) : ℝ)
      / (((q1 : ℝ) + 1/10^12) * ((q2 : ℝ) + 1/10^12)) := by
  have hq1R : (0:ℝ) ≤ (q1 : ℝ) := by exact_mod_cast hq1
  have hq2R : (0:ℝ) ≤ (q2 : ℝ) := by exact_mod_cast hq2
  have hd1 : ((q1 : ℝ) + 1/10^12) ≠ 0 := by positivity
  have hd2 : ((q2 : ℝ) + 1/10^12) ≠ 0 := by positivity
  unfold normalDot unitNormal
  rw [sqrt_normSq_eq c1 q1 hq1 h1, sqrt_normSq_eq c2 q2 hq2 h2]
  unfold dotQ
  field_simp
  ring

theorem normalSimilar_iff_rat (vertices : List Vec3) (triangles : List Tri) (tol : ℚ)
    (i j : ℕ) (q1 q2 : ℚ) (hq1 : 0 ≤ q1) (hq2 : 0 ≤ q2)
    (h1 : normSq (triNormal vertices triangles i) = q1 * q1)
    (h2 : normSq (triNormal vertices triangles j) = q2 * q2) :
    normalSimilar vertices triangles tol i j ↔
      (1 - tol) * ((q1 + 1/10^12) * (q2 + 1/10^12))
        ≤ dotQ (triNormal vertices triangles i) (triNormal vertices triangles j) := by
  have hq1R : (0:ℝ) ≤ (q1 : ℝ) := by exact_mod_cast hq1
  have hq2R : (0:ℝ) ≤ (q2 : ℝ) := by exact_mod_cast hq2
  have hpos : (0:ℝ) < ((q1 : ℝ) + 1/10^12) * ((q2 : ℝ) + 1/10^12) := by positivity
  unfold normalSimilar
  rw [ge_iff_le, normalDot_eq _ _ q1 q2 hq1 hq2 h1 h2, le_div_iff₀ hpos]
  have hcast : ((1 : ℝ) - (tol : ℝ)) * (((q1:ℝ) + 1/10^12) * ((q2:ℝ) + 1/10^12))
      = (((1 - tol) * ((q1 + 1/10^12) * (q2 + 1/10^12)) : ℚ) : ℝ) := by
    push_cast
    ring
  rw [hcast]
  exact Rat.cast_le

/-! ## C4 and C2 -/

/-- C4: the computed regions partition the triangle index set: every
index below the triangle count occurs in exactly one group, every other
index in none. -/
theorem triangleGroups_partition (vertices : List Vec3) (triangles : List Tri) (tol : ℚ)
    (x : ℕ) :
    (triangleGroups vertices triangles tol).flatten.count x
      = if x < triangles.length then 1 else 0 := by
  rcases computeGroups_spec (coplanarTest vertices triangles tol) triangles
      (coplanarTest_symm vertices triangles tol) with ⟨hmem, hnd, _⟩
  unfold triangleGroups
  split_ifs with hx
  · exact List.count_eq_one_of_mem hnd ((hmem x).mpr hx)
  · rw [List.count_eq_zero]
    intro hmem2
    exact hx ((hmem x).mp hmem2)

/-- Two triangles sharing an edge that pass the similarity test are
grouped together. -/
theorem same_group_of_shared_similar (vertices : List Vec3) (triangles : List Tri) (tol : ℚ)
    (i j : ℕ) (hi : i < triangles.length) (hj : j < triangles.length)
    (hshare : sharesEdge triangles i j) (hsim : normalSimilar vertices triangles tol i j) :
    ∃ g ∈ triangleGroups vertices triangles tol, i ∈ g ∧ j ∈ g := by
  rcases computeGroups_spec (coplanarTest vertices triangles tol) triangles
      (coplanarTest_symm vertices triangles tol) with ⟨hmem, _, hclosed⟩
  have hiflat : i ∈ (computeGroups (coplanarTest vertices triangles tol) triangles).flatten :=
    (hmem i).mpr hi
  rcases List.mem_flatten.mp hiflat with ⟨g, hgmem, hig⟩
  have hadj : adjacent (coplanarTest vertices triangles tol) triangles i j := by
    rcases hshare with ⟨k, hk1, hk2⟩
    refine ⟨(mem_neighborList triangles _ j).mpr ⟨hj, k, hk1, hk2⟩, ?_⟩
    unfold coplanarTest
    exact @decide_eq_true _ (Classical.propDecidable _) hsim
  exact ⟨g, hgmem, hig, hclosed g hgmem i hig j hadj⟩

/-- C2 (amended, the `if` direction): two triangles that share an edge
and whose unit normals pass the inclusive dot-product test always land
in the same region.  The converse is false: see
`same_group_not_similar_cex`. -/
theorem sharedEdge_similar_same_group (vertices : List Vec3) (triangles : List Tri) (tol : ℚ)
    (i j : ℕ) (hi : i < triangles.length) (hj : j < triangles.length)
    (hshare : sharesEdge triangles i j) (hsim : normalSimilar vertices triangles tol i j) :
    ∃ g ∈ triangleGroups vertices triangles tol, i ∈ g ∧ j ∈ g :=
  same_group_of_shared_similar vertices triangles tol i j hi hj hshare hsim

/-- Witness for C2 (amended): the two triangles of a flat unit square
share the diagonal and have equal normals, so they merge. -/
theorem sharedEdge_similar_same_group_witness :
    (0 < ([((0:ℕ),(1:ℕ),(2:ℕ)), (0, 2, 3)] : List Tri).length ∧
        1 < ([((0:ℕ),(1:ℕ),(2:ℕ)), (0, 2, 3)] : List Tri).length) ∧
      sharesEdge [(0, 1, 2), (0, 2, 3)] 0 1 ∧
      normalSimilar [(0,0,0), (1,0,0), (1,1,0), (0,1,0)] [(0,1,2), (0,2,3)] (1/10^4) 0 1 ∧
      ∃ g ∈ triangleGroups [(0,0,0), (1,0,0), (1,1,0), (0,1,0)] [(0,1,2), (0,2,3)] (1/10^4),
        0 ∈ g ∧ 1 ∈ g := by
  have hn0 : triNormal [((0:ℚ),(0:ℚ),(0:ℚ)), (1,0,0), (1,1,0), (0,1,0)] [(0,1,2), (0,2,3)] 0
      = (0, 0, 1) := by
    show face_normal (0, 0, 0) (1, 0, 0) (1, 1, 0) = (0, 0, 1)
    unfold face_normal cross vsub
    norm_num
  have hn1 : triNormal [((0:ℚ),(0:ℚ),(0:ℚ)), (1,0,0), (1,1,0), (0,1,0)] [(0,1,2), (0,2,3)] 1
      = (0, 0, 1) := by
    show face_normal (0, 0, 0) (1, 1, 0) (0, 1, 0) = (0, 0, 1)
    unfold face_normal cross vsub
    norm_num
  have h1 : normSq (triNormal [((0:ℚ),(0:ℚ),(0:ℚ)), (1,0,0), (1,1,0), (0,1,0)]
      [(0,1,2), (0,2,3)] 0) = 1 * 1 := by
    rw [hn0]
    unfold normSq dotQ
    norm_num
  have h2 : normSq (triNormal [((0:ℚ),(0:ℚ),(0:ℚ)), (1,0,0), (1,1,0), (0,1,0)]
      [(0,1,2), (0,2,3)] 1) = 1 * 1 := by
    rw [hn1]
    unfold normSq dotQ
    norm_num
  have hsim : normalSimilar [(0,0,0), (1,0,0), (1,1,0), (0,1,0)] [(0,1,2), (0,2,3)]
      (1/10^4) 0 1 := by
    rw [normalSimilar_iff_rat _ _ _ 0 1 1 1 (by norm_num) (by norm_num) h1 h2]
    rw [hn0, hn1]
    unfold dotQ
    norm_num
  refine ⟨⟨by norm_num, by norm_num⟩, ⟨(0, 2), by decide, by decide⟩, hsim, ?_⟩
  exact sharedEdge_similar_same_group _ _ _ 0 1 (by norm_num) (by norm_num)
    ⟨(0, 2), by decide, by decide⟩ hsim

/-! ## The single-triangle region -/

theorem floodStep_skip (test : ℕ → ℕ → Bool) (curr : ℕ) (nbrs : List ℕ)
    (st : List ℕ × List ℕ × List ℕ) (h : ∀ x ∈ nbrs, x ∈ st.2.2) :
    floodStep test curr nbrs st = st := by
  induction nbrs with
  | nil => rfl
  | cons x xs ih =>
    unfold floodStep
    rw [List.foldl_cons]
    rw [if_pos (h x (List.mem_cons_self _ _))]
    exact ih (fun y hy => h y (List.mem_cons_of_mem _ hy))

theorem computeGroups_singleton (test : ℕ → ℕ → Bool) (t : Tri) :
    computeGroups test [t] = [[0]] := by
  have hnb : ∀ x ∈ neighborList (buildEdgeMap [t]) (([t] : List Tri).getD 0 (0, 0, 0)),
      x ∈ (([], [0], [0]) : List ℕ × List ℕ × List ℕ).2.2 := by
    intro x hx
    have hlt := ((mem_neighborList [t] _ x).mp hx).1
    rw [List.length_singleton] at hlt
    have hx0 : x = 0 := by omega
    rw [hx0]
    exact List.mem_cons_self _ _
  have hstep : floodLoop test [t] (buildEdgeMap [t]) (([t] : List Tri).length + 1) [0] [0] [0]
      = ([0], [0]) := by
    show floodLoop test [t] (buildEdgeMap [t]) ([t] : List Tri).length
        (floodStep test 0 (neighborList (buildEdgeMap [t]) (([t] : List Tri).getD 0 (0, 0, 0)))
          ([], [0], [0])).1
        (floodStep test 0 (neighborList (buildEdgeMap [t]) (([t] : List Tri).getD 0 (0, 0, 0)))
          ([], [0], [0])).2.1
        (floodStep test 0 (neighborList (buildEdgeMap [t]) (([t] : List Tri).getD 0 (0, 0, 0)))
          ([], [0], [0])).2.2 = ([0], [0])
    rw [floodStep_skip test 0 _ _ hnb]
    exact floodLoop_nil test [t] (buildEdgeMap [t]) ([t] : List Tri).length [0] [0]
  show (groupStep test [t] (buildEdgeMap [t]) ([], []) 0).2 = [[0]]
  unfold groupStep
  rw [if_neg (by simp : ¬(0 ∈ (([], []) : List ℕ × List (List ℕ)).1))]
  show ((floodLoop test [t] (buildEdgeMap [t]) (([t] : List Tri).length + 1) [0] [0] [0]).2,
      ([] : List (List ℕ)) ++ [(floodLoop test [t] (buildEdgeMap [t])
        (([t] : List Tri).length + 1) [0] [0] [0]).1]).2 = [[0]]
  rw [hstep]
  rfl

theorem loopWalk_step_continue (f : ℕ) (e : List (ℕ × ℕ)) (l : List ℕ) (c nxt : ℕ)
    (hget : dget c e = some nxt) (hne : ¬nxt = l.headD 0) (hmem : nxt ∉ l)
    (hlen : ¬1000 < (l ++ [nxt]).length) :
    loopWalk (f + 1) e l c = loopWalk f (derase c e) (l ++ [nxt]) nxt := by
  simp only [loopWalk]
  rw [hget]
  dsimp only
  rw [if_neg hne, if_neg hmem, if_neg hlen]

theorem loopWalk_step_close (f : ℕ) (e : List (ℕ × ℕ)) (l : List ℕ) (c nxt : ℕ)
    (hget : dget c e = some nxt) (heq : nxt = l.headD 0) :
    loopWalk (f + 1) e l c = (l ++ [nxt], WalkExit.closed) := by
  simp only [loopWalk]
  rw [hget]
  dsimp only
  rw [if_pos heq]

theorem regionPoly_single (a b c : ℕ) (hab : a ≠ b) (hbc : b ≠ c) (hac : a ≠ c) :
    regionPoly [(a, b, c)] [0] = some [c, b, a] := by
  have hba : b ≠ a := Ne.symm hab
  have hcb : c ≠ b := Ne.symm hbc
  have hca : c ≠ a := Ne.symm hac
  have hec : buildEdgeCount [(a, b, c)] [0]
      = [((a, b), (a, b)), ((b, c), (b, c)), ((c, a), (c, a))] := by
    show (triEdges (a, b, c)).foldl stepEdgeCount [] = _
    unfold triEdges
    rw [List.foldl_cons, List.foldl_cons, List.foldl_cons, List.foldl_nil]
    have h1 : stepEdgeCount [] (a, b) = [((a, b), (a, b))] := rfl
    rw [h1]
    have h2 : stepEdgeCount [((a, b), (a, b))] (b, c)
        = [((a, b), (a, b)), ((b, c), (b, c))] := by
      unfold stepEdgeCount
      rw [if_neg (by simp [dmem, Prod.ext_iff, hab, hba, hbc, hcb, hac, hca] :
        ¬dmem ((b, c).2, (b, c).1) [((a, b), (a, b))] = true)]
      unfold dupsert
      rw [if_neg (by simp [dmem, Prod.ext_iff, hab, hba, hbc, hcb, hac, hca] :
        ¬dmem (b, c) [((a, b), (a, b))] = true)]
      rfl
    rw [h2]
    unfold stepEdgeCount
    rw [if_neg (by simp [dmem, Prod.ext_iff, hab, hba, hbc, hcb, hac, hca] :
      ¬dmem ((c, a).2, (c, a).1) [((a, b), (a, b)), ((b, c), (b, c))] = true)]
    unfold dupsert
    rw [if_neg (by simp [dmem, Prod.ext_iff, hab, hba, hbc, hcb, hac, hca] :
      ¬dmem (c, a) [((a, b), (a, b)), ((b, c), (b, c))] = true)]
    rfl
  have hedges : buildEdges [((a, b), (a, b)), ((b, c), (b, c)), ((c, a), (c, a))]
      = [(a, b), (b, c), (c, a)] := by
    unfold buildEdges
    rw [List.foldl_cons, List.foldl_cons, List.foldl_cons, List.foldl_nil]
    dsimp only
    have h1 : dupsert a b [] = [(a, b)] := rfl
    rw [h1]
    have h2 : dupsert b c [(a, b)] = [(a, b), (b, c)] := by
      unfold dupsert
      rw [if_neg (by simp [dmem, hab, hba] : ¬dmem b [(a, b)] = true)]
      rfl
    rw [h2]
    unfold dupsert
    rw [if_neg (by simp [dmem, hac, hca, hbc, hcb] : ¬dmem c [(a, b), (b, c)] = true)]
    rfl
  have hget1 : dget a [(a, b), (b, c), (c, a)] = some b := by
    unfold dget
    rw [List.find?_cons_of_pos _ (by simp)]
    rfl
  have hget2 : dget b [(b, c), (c, a)] = some c := by
    unfold dget
    rw [List.find?_cons_of_pos _ (by simp)]
    rfl
  have hget3 : dget c [(c, a)] = some a := by
    unfold dget
    rw [List.find?_cons_of_pos _ (by simp)]
    rfl
  have hder1 : derase a [(a, b), (b, c), (c, a)] = [(b, c), (c, a)] := by
    unfold derase
    simp [List.filter_cons, hba, hca]
  have hder2 : derase b [(b, c), (c, a)] = [(c, a)] := by
    unfold derase
    simp [List.filter_cons, hcb]
  have hwalk : loopWalk (([(a, b), (b, c), (c, a)] : List (ℕ × ℕ)).length)
      [(a, b), (b, c), (c, a)] [a] a = ([a, b, c, a], WalkExit.closed) := by
    rw [show ([(a, b), (b, c), (c, a)] : List (ℕ × ℕ)).length = 2 + 1 from rfl]
    rw [loopWalk_step_continue 2 _ _ a b hget1 (by simpa using hba)
      (by simp [hba]) (by simp)]
    rw [hder1]
    rw [show ([a] : List ℕ) ++ [b] = [a, b] from rfl]
    rw [show (2 : ℕ) = 1 + 1 from rfl]
    rw [loopWalk_step_continue 1 _ _ b c hget2 (by simpa using hca)
      (by simp [hca, hcb]) (by simp)]
    rw [hder2]
    rw [show ([a, b] : List ℕ) ++ [c] = [a, b, c] from rfl]
    rw [show (1 : ℕ) = 0 + 1 from rfl]
    rw [loopWalk_step_close 0 _ _ c a hget3 (by simp)]
    rfl
  have hrw : regionWalk [(a, b, c)] [0] = ([a, b, c, a], WalkExit.closed) := by
    simp only [regionWalk]
    rw [hec, hedges]
    exact hwalk
  simp only [regionPoly]
  rw [hec]
  rw [if_neg (by simp : ¬([((a, b), (a, b)), ((b, c), (b, c)), ((c, a), (c, a))] :
    List ((ℕ × ℕ) × (ℕ × ℕ))).length < 3)]
  rw [hedges]
  rw [if_neg (by simp : ¬([(a, b), (b, c), (c, a)] : List (ℕ × ℕ)).isEmpty = true)]
  rw [hrw]
  rw [if_pos (by simp : 4 ≤ ([a, b, c, a] : List ℕ).length ∧
    ([a, b, c, a] : List ℕ).headD 0 = ([a, b, c, a] : List ℕ).getLastD 0)]
  have hdrop : ([a, b, c, a] : List ℕ).dropLast = [a, b, c] := by
    simp
  rw [hdrop]
  rfl

/-- `merge_coplanar_triangles` on a one-triangle list, for any vertex
array and tolerance: the emitted polygon is the reversed index triple. -/
theorem merge_single_helper (vertices : List Vec3) (tol : ℚ) (a b c : ℕ)
    (hab : a ≠ b) (hbc : b ≠ c) (hac : a ≠ c) :
    merge_coplanar_triangles vertices [(a, b, c)] tol = [[c, b, a]] := by
  show ((triangleGroups vertices [(a, b, c)] tol).filterMap (regionPoly [(a, b, c)])) = _
  show ((computeGroups (coplanarTest vertices [(a, b, c)] tol) [(a, b, c)]).filterMap
    (regionPoly [(a, b, c)])) = _
  rw [computeGroups_singleton]
  rw [List.filterMap_cons]
  rw [regionPoly_single a b c hab hbc hac]
  rfl

/-! ## C1, C9: emitted polygons of the merge -/

/-- C1 (amended): a single-triangle input yields exactly one 3-vertex
polygon; its index sequence is the input triple *reversed* (the closed
boundary walk follows the winding of the triangle and the source reverses the
loop before emitting), not a rotation of the input triple. -/
theorem merge_single_triangle (vertices : List Vec3) (tol : ℚ) (a b c : ℕ)
    (hab : a ≠ b) (hbc : b ≠ c) (hac : a ≠ c) :
    merge_coplanar_triangles vertices [(a, b, c)] tol = [[c, b, a]] :=
  merge_single_helper vertices tol a b c hab hbc hac

/-- Witness for C1 (amended) at the isolated triangle of the spec. -/
theorem merge_single_triangle_witness :
    ((0 : ℕ) ≠ 1 ∧ (1 : ℕ) ≠ 2 ∧ (0 : ℕ) ≠ 2) ∧
      merge_coplanar_triangles [(0, 0, 0), (1, 0, 0), (0, 1, 0)] [(0, 1, 2)] (1/10^4)
        = [[2, 1, 0]] :=
  ⟨⟨by decide, by decide, by decide⟩,
    merge_single_triangle [(0, 0, 0), (1, 0, 0), (0, 1, 0)] (1/10^4) 0 1 2
      (by decide) (by decide) (by decide)⟩

/-- C1 (counterexample): the polygon emitted for the isolated triangle
`(0,0,0),(1,0,0),(0,1,0)` with index triple `(0,1,2)` is `[2,1,0]`,
which is not equal to any rotation of `[0,1,2]`. -/
theorem merge_single_triangle_cex :
    merge_coplanar_triangles [(0, 0, 0), (1, 0, 0), (0, 1, 0)] [(0, 1, 2)] (1/10^4)
        = [[2, 1, 0]] ∧
      ∀ n : ℕ, List.rotate [0, 1, 2] n ≠ [2, 1, 0] := by
  constructor
  · exact merge_single_helper [(0, 0, 0), (1, 0, 0), (0, 1, 0)] (1/10^4) 0 1 2
      (by decide) (by decide) (by decide)
  · intro n h
    have hmod := List.rotate_mod ([0, 1, 2] : List ℕ) n
    rw [← hmod] at h
    rw [show ([0, 1, 2] : List ℕ).length = 3 from rfl] at h
    have h3 : n % 3 = 0 ∨ n % 3 = 1 ∨ n % 3 = 2 := by omega
    rcases h3 with h3 | h3 | h3 <;> rw [h3] at h <;> exact absurd h (by decide)

/-- C9: the boundary walk is bounded by the 1000-vertex safety check, so
the merge is total and no emitted polygon has more than 1000 vertices. -/
theorem merge_poly_length_le (vertices : List Vec3) (triangles : List Tri) (tol : ℚ)
    (p : List ℕ) (hp : p ∈ merge_coplanar_triangles vertices triangles tol) :
    p.length ≤ 1000 := by
  rcases List.mem_filterMap.mp hp with ⟨g, hg, hpoly⟩
  rcases regionPoly_some_shape triangles g p hpoly with ⟨hshape, hlen⟩
  rw [hshape]
  rw [List.length_reverse, List.length_dropLast]
  have := regionWalk_length triangles g
  omega

/-- Witness for C9 at the single-triangle mesh. -/
theorem merge_poly_length_le_witness :
    [2, 1, 0] ∈ merge_coplanar_triangles [(0, 0, 0), (1, 0, 0), (0, 1, 0)] [(0, 1, 2)]
        (1/10^4) ∧
      ([2, 1, 0] : List ℕ).length ≤ 1000 := by
  have hm := merge_single_helper [(0, 0, 0), (1, 0, 0), (0, 1, 0)] (1/10^4) 0 1 2
    (by decide) (by decide) (by decide)
  constructor
  · rw [hm]
    exact List.mem_singleton.mpr rfl
  · exact merge_poly_length_le [(0, 0, 0), (1, 0, 0), (0, 1, 0)] [(0, 1, 2)] (1/10^4)
      [2, 1, 0] (by rw [hm]; exact List.mem_singleton.mpr rfl)

/-! ## C10: emitted indices come from input triangle corners -/

theorem dupsert_mem {α β : Type} [BEq α] (k : α) (v : β) (d : List (α × β)) :
    ∀ p ∈ dupsert k v d, p ∈ d ∨ p = (k, v) := by
  intro p hp
  unfold dupsert at hp
  split_ifs at hp with hm
  · rcases List.mem_map.mp hp with ⟨q, hq, hfq⟩
    by_cases hqk : (q.1 == k) = true
    · rw [if_pos hqk] at hfq
      exact Or.inr hfq.symm
    · rw [if_neg hqk] at hfq
      rw [← hfq]
      exact Or.inl hq
  · rcases List.mem_append.mp hp with h | h
    · exact Or.inl h
    · exact Or.inr (List.mem_singleton.mp h)

theorem getD_mem_of_lt {l : List Tri} {i : ℕ} (h : i < l.length) : l.getD i (0, 0, 0) ∈ l := by
  rw [List.getD_eq_getElem?_getD, List.getElem?_eq_getElem h]
  exact List.getElem_mem h

theorem triEdges_corners (triangles : List Tri) (t : Tri) (ht : t ∈ triangles) :
    ∀ d ∈ triEdges t, isCorner triangles d.1 ∧ isCorner triangles d.2 := by
  intro d hd
  unfold triEdges at hd
  simp only [List.mem_cons, List.mem_singleton, List.not_mem_nil, or_false] at hd
  rcases hd with rfl | rfl | rfl
  · exact ⟨⟨t, ht, Or.inl rfl⟩, ⟨t, ht, Or.inr (Or.inl rfl)⟩⟩
  · exact ⟨⟨t, ht, Or.inr (Or.inl rfl)⟩, ⟨t, ht, Or.inr (Or.inr rfl)⟩⟩
  · exact ⟨⟨t, ht, Or.inr (Or.inr rfl)⟩, ⟨t, ht, Or.inl rfl⟩⟩

theorem stepEdgeCount_good (triangles : List Tri) (ec : List ((ℕ × ℕ) × (ℕ × ℕ)))
    (d : ℕ × ℕ) (hec : ∀ e ∈ ec, isCorner triangles e.2.1 ∧ isCorner triangles e.2.2)
    (hd : isCorner triangles d.1 ∧ isCorner triangles d.2) :
    ∀ e ∈ stepEdgeCount ec d, isCorner triangles e.2.1 ∧ isCorner triangles e.2.2 := by
  intro e he
  unfold stepEdgeCount at he
  split_ifs at he with hm
  · exact hec e (derase_subset _ _ _ he)
  · rcases dupsert_mem d d ec e he with h | rfl
    · exact hec e h
    · exact hd

theorem buildEdgeCount_good (triangles : List Tri) :
    ∀ (group : List ℕ) (ec : List ((ℕ × ℕ) × (ℕ × ℕ))),
      (∀ i ∈ group, i < triangles.length) →
      (∀ e ∈ ec, isCorner triangles e.2.1 ∧ isCorner triangles e.2.2) →
      ∀ e ∈ group.foldl
        (fun ec idx => (triEdges (triangles.getD idx (0, 0, 0))).foldl stepEdgeCount ec) ec,
        isCorner triangles e.2.1 ∧ isCorner triangles e.2.2 := by
  have hinner : ∀ (es : List (ℕ × ℕ)) (ec : List ((ℕ × ℕ) × (ℕ × ℕ))),
      (∀ d ∈ es, isCorner triangles d.1 ∧ isCorner triangles d.2) →
      (∀ e ∈ ec, isCorner triangles e.2.1 ∧ isCorner triangles e.2.2) →
      ∀ e ∈ es.foldl stepEdgeCount ec, isCorner triangles e.2.1 ∧ isCorner triangles e.2.2 := by
    intro es
    induction es with
    | nil => intro ec _ hec e he; exact hec e he
    | cons d ds ih =>
      intro ec hds hec e he
      rw [List.foldl_cons] at he
      exact ih (stepEdgeCount ec d) (fun x hx => hds x (List.mem_cons_of_mem _ hx))
        (stepEdgeCount_good triangles ec d hec (hds d (List.mem_cons_self _ _))) e he
  intro group
  induction group with
  | nil => intro ec _ hec e he; exact hec e he
  | cons i is ih =>
    intro ec hg hec e he
    rw [List.foldl_cons] at he
    refine ih _ (fun x hx => hg x (List.mem_cons_of_mem _ hx)) ?_ e he
    exact hinner _ ec
      (triEdges_corners triangles _ (getD_mem_of_lt (hg i (List.mem_cons_self _ _)))) hec

theorem buildEdges_good (triangles : List Tri) :
    ∀ (ec : List ((ℕ × ℕ) × (ℕ × ℕ))) (m : List (ℕ × ℕ)),
      (∀ e ∈ ec, isCorner triangles e.2.1 ∧ isCorner triangles e.2.2) →
      (∀ q ∈ m, isCorner triangles q.1 ∧ isCorner triangles q.2) →
      ∀ q ∈ ec.foldl (fun m e => dupsert e.2.1 e.2.2 m) m,
        isCorner triangles q.1 ∧ isCorner triangles q.2 := by
  intro ec
  induction ec with
  | nil => intro m _ hm q hq; exact hm q hq
  | cons e es ih =>
    intro m hec hm q hq
    rw [List.foldl_cons] at hq
    refine ih _ (fun x hx => hec x (List.mem_cons_of_mem _ hx)) ?_ q hq
    intro r hr
    rcases dupsert_mem e.2.1 e.2.2 m r hr with h | rfl
    · exact hm r h
    · exact hec e (List.mem_cons_self _ _)

/-- C10: every vertex index occurring in any polygon returned by the
merge occurs as a corner index of some input triangle; the merger never
invents indices. -/
theorem merge_polys_use_input_corners (vertices : List Vec3) (triangles : List Tri)
    (tol : ℚ) (p : List ℕ) (x : ℕ)
    (hp : p ∈ merge_coplanar_triangles vertices triangles tol) (hx : x ∈ p) :
    isCorner triangles x := by
  rcases List.mem_filterMap.mp hp with ⟨g, hg, hpoly⟩
  have hgrange : ∀ i ∈ g, i < triangles.length := by
    rcases computeGroups_spec (coplanarTest vertices triangles tol) triangles
        (coplanarTest_symm vertices triangles tol) with ⟨hmem, _, _⟩
    intro i hi
    exact (hmem i).mp (List.mem_flatten.mpr ⟨g, hg, hi⟩)
  have hecgood : ∀ e ∈ buildEdgeCount triangles g,
      isCorner triangles e.2.1 ∧ isCorner triangles e.2.2 :=
    buildEdgeCount_good triangles g [] hgrange (by simp)
  have hedgegood : ∀ q ∈ buildEdges (buildEdgeCount triangles g),
      isCorner triangles q.1 ∧ isCorner triangles q.2 :=
    buildEdges_good triangles (buildEdgeCount triangles g) [] hecgood (by simp)
  have hwalkgood : ∀ z ∈ (regionWalk triangles g).1, isCorner triangles z := by
    intro z hz
    rcases hE : buildEdges (buildEdgeCount triangles g) with _ | ⟨⟨s, b⟩, tl⟩
    · simp only [regionWalk, hE] at hz
      simp at hz
    · simp only [regionWalk, hE] at hz
      rcases loopWalk_mem _ _ _ _ _ hz with hzl | ⟨q, hq, hzq⟩
      · have hzs : z = s := List.mem_singleton.mp hzl
        rw [hzs]
        exact (hedgegood (s, b) (by rw [hE]; exact List.mem_cons_self _ _)).1
      · rw [hzq]
        exact (hedgegood q (by rw [hE]; exact hq)).2
  rcases regionPoly_some_shape triangles g p hpoly with ⟨hshape, _⟩
  rw [hshape] at hx
  rw [List.mem_reverse] at hx
  exact hwalkgood x ((List.dropLast_sublist _).subset hx)

/-- Witness for C10 at the single-triangle mesh. -/
theorem merge_polys_use_input_corners_witness :
    [2, 1, 0] ∈ merge_coplanar_triangles [(0, 0, 0), (1, 0, 0), (0, 1, 0)] [(0, 1, 2)]
        (1/10^4) ∧
      (2 : ℕ) ∈ ([2, 1, 0] : List ℕ) ∧ isCorner [(0, 1, 2)] 2 := by
  have hm := merge_single_helper [(0, 0, 0), (1, 0, 0), (0, 1, 0)] (1/10^4) 0 1 2
    (by decide) (by decide) (by decide)
  have hmem : [2, 1, 0] ∈ merge_coplanar_triangles [(0, 0, 0), (1, 0, 0), (0, 1, 0)]
      [(0, 1, 2)] (1/10^4) := by
    rw [hm]
    exact List.mem_singleton.mpr rfl
  exact ⟨hmem, List.mem_cons_self _ _,
    merge_polys_use_input_corners [(0, 0, 0), (1, 0, 0), (0, 1, 0)] [(0, 1, 2)] (1/10^4)
      [2, 1, 0] 2 hmem (List.mem_cons_self _ _)⟩

/-! ## C2 counterexample: merging is transitive across the tolerance -/

theorem nodup_flatten_unique {α : Type} (gs : List (List α)) (hnd : gs.flatten.Nodup) :
    ∀ g1 ∈ gs, ∀ g2 ∈ gs, ∀ x : α, x ∈ g1 → x ∈ g2 → g1 = g2 := by
  induction gs with
  | nil => simp
  | cons g gs ih =>
    rw [List.flatten_cons, List.nodup_append] at hnd
    rcases hnd with ⟨hg, hrest, hdisj⟩
    intro g1 hg1 g2 hg2 x hx1 hx2
    rcases List.mem_cons.mp hg1 with hEq1 | hIn1
    · rcases List.mem_cons.mp hg2 with hEq2 | hIn2
      · rw [hEq1, hEq2]
      · exfalso
        have hxg : x ∈ g := hEq1 ▸ hx1
        exact hdisj hxg (List.mem_flatten.mpr ⟨g2, hIn2, hx2⟩)
    · rcases List.mem_cons.mp hg2 with hEq2 | hIn2
      · exfalso
        have hxg : x ∈ g := hEq2 ▸ hx2
        exact hdisj hxg (List.mem_flatten.mpr ⟨g1, hIn1, hx1⟩)
      · exact ih hrest g1 hIn1 g2 hIn2 x hx1 hx2

/-- C2 (counterexample): a non-manifold fan of three triangles around
the edge `{0,1}`.  Triangles 0 and 1 share that edge but their unit
normals fail the dot-product test; the flood fill still puts them in one
region through the intermediate triangle 2, refuting the `only if`
direction of the claim. -/
theorem same_group_not_similar_cex :
    sharesEdge [(0, 1, 2), (0, 1, 4), (0, 1, 3)] 0 1 ∧
      (∃ g ∈ triangleGroups
          [(0, 0, 0), (0, 0, 1), (0, -1, 0), (7/500, -999951/10^6, 0),
            (7/250, -999804/10^6, 0)]
          [(0, 1, 2), (0, 1, 4), (0, 1, 3)] (1/10^4), 0 ∈ g ∧ 1 ∈ g) ∧
      ¬normalSimilar
          [(0, 0, 0), (0, 0, 1), (0, -1, 0), (7/500, -999951/10^6, 0),
            (7/250, -999804/10^6, 0)]
          [(0, 1, 2), (0, 1, 4), (0, 1, 3)] (1/10^4) 0 1 := by
  have hn0 : triNormal
      [((0:ℚ), (0:ℚ), (0:ℚ)), (0, 0, 1), (0, -1, 0), (7/500, -999951/10^6, 0),
        (7/250, -999804/10^6, 0)]
      [(0, 1, 2), (0, 1, 4), (0, 1, 3)] 0 = (1, 0, 0) := by
    show face_normal (0, 0, 0) (0, 0, 1) (0, -1, 0) = (1, 0, 0)
    unfold face_normal cross vsub
    norm_num
  have hn1 : triNormal
      [((0:ℚ), (0:ℚ), (0:ℚ)), (0, 0, 1), (0, -1, 0), (7/500, -999951/10^6, 0),
        (7/250, -999804/10^6, 0)]
      [(0, 1, 2), (0, 1, 4), (0, 1, 3)] 1 = (999804/10^6, 7/250, 0) := by
    show face_normal (0, 0, 0) (0, 0, 1) (7/250, -999804/10^6, 0)
        = (999804/10^6, 7/250, 0)
    unfold face_normal cross vsub
    norm_num
  have hn2 : triNormal
      [((0:ℚ), (0:ℚ), (0:ℚ)), (0, 0, 1), (0, -1, 0), (7/500, -999951/10^6, 0),
        (7/250, -999804/10^6, 0)]
      [(0, 1, 2), (0, 1, 4), (0, 1, 3)] 2 = (999951/10^6, 7/500, 0) := by
    show face_normal (0, 0, 0) (0, 0, 1) (7/500, -999951/10^6, 0)
        = (999951/10^6, 7/500, 0)
    unfold face_normal cross vsub
    norm_num
  have hq0 : normSq ((1 : ℚ), (0 : ℚ), (0 : ℚ)) = 1 * 1 := by
    unfold normSq dotQ
    norm_num
  have hq1 : normSq ((999804/10^6 : ℚ), (7/250 : ℚ), (0 : ℚ))
      = (250049/250000) * (250049/250000) := by
    unfold normSq dotQ
    norm_num
  have hq2 : normSq ((999951/10^6 : ℚ), (7/500 : ℚ), (0 : ℚ))
      = (1000049/10^6) * (1000049/10^6) := by
    unfold normSq dotQ
    norm_num
  have hsim02 : normalSimilar
      [(0, 0, 0), (0, 0, 1), (0, -1, 0), (7/500, -999951/10^6, 0),
        (7/250, -999804/10^6, 0)]
      [(0, 1, 2), (0, 1, 4), (0, 1, 3)] (1/10^4) 0 2 := by
    rw [normalSimilar_iff_rat _ _ _ 0 2 1 (1000049/10^6) (by norm_num) (by norm_num)
      (by rw [hn0]; exact hq0) (by rw [hn2]; exact hq2)]
    rw [hn0, hn2]
    unfold dotQ
    norm_num
  have hsim21 : normalSimilar
      [(0, 0, 0), (0, 0, 1), (0, -1, 0), (7/500, -999951/10^6, 0),
        (7/250, -999804/10^6, 0)]
      [(0, 1, 2), (0, 1, 4), (0, 1, 3)] (1/10^4) 2 1 := by
    rw [normalSimilar_iff_rat _ _ _ 2 1 (1000049/10^6) (250049/250000) (by norm_num)
      (by norm_num) (by rw [hn2]; exact hq2) (by rw [hn1]; exact hq1)]
    rw [hn2, hn1]
    unfold dotQ
    norm_num
  have hnsim01 : ¬normalSimilar
      [(0, 0, 0), (0, 0, 1), (0, -1, 0), (7/500, -999951/10^6, 0),
        (7/250, -999804/10^6, 0)]
      [(0, 1, 2), (0, 1, 4), (0, 1, 3)] (1/10^4) 0 1 := by
    rw [normalSimilar_iff_rat _ _ _ 0 1 1 (250049/250000) (by norm_num) (by norm_num)
      (by rw [hn0]; exact hq0) (by rw [hn1]; exact hq1)]
    rw [hn0, hn1]
    unfold dotQ
    norm_num
  rcases same_group_of_shared_similar _ _ (1/10^4) 0 2 (by norm_num) (by norm_num)
      ⟨(0, 1), by decide, by decide⟩ hsim02 with ⟨ga, hga, h0a, h2a⟩
  rcases same_group_of_shared_similar _ _ (1/10^4) 2 1 (by norm_num) (by norm_num)
      ⟨(0, 1), by decide, by decide⟩ hsim21 with ⟨gb, hgb, h2b, h1b⟩
  have hnd := (computeGroups_spec
      (coplanarTest
        [(0, 0, 0), (0, 0, 1), (0, -1, 0), (7/500, -999951/10^6, 0),
          (7/250, -999804/10^6, 0)]
        [(0, 1, 2), (0, 1, 4), (0, 1, 3)] (1/10^4))
      [(0, 1, 2), (0, 1, 4), (0, 1, 3)]
      (coplanarTest_symm _ _ _)).2.1
  have hab : ga = gb := nodup_flatten_unique _ hnd ga hga gb hgb 2 h2a h2b
  exact ⟨⟨(0, 1), by decide, by decide⟩, ⟨ga, hga, h0a, hab ▸ h1b⟩, hnsim01⟩

/-! ## The walk fuel is canonical

The Python `while current in edges:` loop is unbounded; the embedding
passes `edges.length` as fuel.  Each iteration deletes the entry of the
current vertex, so any fuel of at least `edges.length` produces the same
result: the fuel choice is not observable. -/

theorem loopWalk_edges_nil (f : ℕ) (l : List ℕ) (c : ℕ) :
    loopWalk f [] l c = (l, WalkExit.opened) := by
  cases f with
  | zero => rfl
  | succ n => rfl

theorem derase_length_lt {α β : Type} [BEq α] {k : α} {d : List (α × β)} {v : β}
    (h : dget k d = some v) : (derase k d).length < d.length := by
  unfold derase
  rw [List.length_filter_lt_length_iff_exists]
  unfold dget at h
  rcases Option.map_eq_some'.mp h with ⟨a, ha, _⟩
  exact ⟨a, List.mem_of_find?_eq_some ha, by simp [List.find?_some ha]⟩

theorem loopWalk_fuel_sufficient :
    ∀ (f1 f2 : ℕ) (e : List (ℕ × ℕ)) (l : List ℕ) (c : ℕ),
      e.length ≤ f1 → e.length ≤ f2 → loopWalk f1 e l c = loopWalk f2 e l c := by
  intro f1
  induction f1 with
  | zero =>
    intro f2 e l c h1 _
    have he : e = [] := List.length_eq_zero.mp (by omega)
    subst he
    rw [loopWalk_edges_nil, loopWalk_edges_nil]
  | succ f1 ih =>
    intro f2 e l c h1 h2
    cases f2 with
    | zero =>
      have he : e = [] := List.length_eq_zero.mp (by omega)
      subst he
      rw [loopWalk_edges_nil, loopWalk_edges_nil]
    | succ f2 =>
      rw [loopWalk, loopWalk]
      cases hd : dget c e with
      | none => rfl
      | some nxt =>
        dsimp only
        split_ifs with hh1 hh2 hh3
        · rfl
        · rfl
        · rfl
        · have hlt := derase_length_lt hd
          exact ih f2 (derase c e) (l ++ [nxt]) nxt (by omega) (by omega)

end ThreeD2Scad
